import Mathlib

/-!
Verification development for the cellular-forms growth simulator
(`src/model.cpp`).  The C++ code is shallowly embedded: the parallel
arrays of `Model` become Lean lists, `float` arithmetic is idealised as
real arithmetic, and the two external collaborators (the spatial index
and the random source) become explicit parameters (a query function
`nearby` and lists of pre-drawn random values), following the contracts
stated for them in the specification.
-/

/-- Three-dimensional vectors, as used by the simulator (glm::vec3,
idealised over the reals).  Using a product type gives the additive
group and scalar-module structure componentwise. -/
abbrev Vec3 : Type := ℝ × ℝ × ℝ

namespace glm

/-- Embedding of `glm::dot` for 3-vectors. -/
def dot (a b : Vec3) : ℝ := a.1 * b.1 + a.2.1 * b.2.1 + a.2.2 * b.2.2

/-- Embedding of `glm::length2` (squared euclidean norm). -/
def length2 (v : Vec3) : ℝ := dot v v

/-- Embedding of `glm::length`. -/
noncomputable def length (v : Vec3) : ℝ := Real.sqrt (length2 v)

/-- Embedding of `glm::normalize`: `v / length v`.  (On the zero vector the
C++ value is undefined (NaN); the idealisation yields `0` there, and every
theorem that touches this case keeps it away by hypothesis or uses the same
expression on both sides.) -/
noncomputable def normalize (v : Vec3) : Vec3 := (1 / length v) • v

/-- Embedding of `glm::cross`. -/
def cross (a b : Vec3) : Vec3 :=
  (a.2.1 * b.2.2 - a.2.2 * b.2.1,
   a.2.2 * b.1 - a.1 * b.2.2,
   a.1 * b.2.1 - a.2.1 * b.1)

/-- Embedding of `glm::triangleNormal p1 p2 p3 = normalize (cross (p1 - p2) (p1 - p3))`. -/
noncomputable def triangleNormal (p1 p2 p3 : Vec3) : Vec3 :=
  normalize (cross (p1 - p2) (p1 - p3))

end glm

/-- State of the simulator: the parallel per-cell arrays and the model
parameters of `Model` in `model.cpp`.  The spatial index `m_Index` is kept
outside the state: it belongs to external code and all operations that
consult it take its answers as parameters. -/
structure Model where
  m_Positions : List Vec3
  m_Normals : List Vec3
  m_Food : List ℝ
  m_Links : List (List ℕ)
  m_LinkRestLength : ℝ
  m_SplitThreshold : ℝ
  m_RadiusOfInfluence : ℝ
  m_RepulsionFactor : ℝ
  m_SpringFactor : ℝ
  m_PlanarFactor : ℝ
  m_BulgeFactor : ℝ

/-- List-level core of `Model::ChangeLink`: `*std::find(links.begin(),
links.end(), a) = b`, i.e. overwrite the first occurrence of `a` with `b`.
The source's presence check (`Panic`) is commented out; when `a ∉ links`
the C++ dereferences the end iterator (undefined behaviour), which this
total model renders as a no-op (`List.set` past the end); all theorems
that rely on this function assume `a ∈ links`. -/
def changeLink (links : List ℕ) (a b : ℕ) : List ℕ :=
  links.set (links.indexOf a) b

/-- List-level core of `Model::InsertLinkBefore`: insert `b` before the
first occurrence of `a`.  When `a ∉ links`, `std::find` returns `end()` and
`std::vector::insert` appends at the end — well-defined C++, faithfully
modelled (`indexOf` returns `length`, and `insertIdx length` appends). -/
def insertLinkBefore (links : List ℕ) (a b : ℕ) : List ℕ :=
  links.insertIdx (links.indexOf a) b

/-- List-level core of `Model::InsertLinkAfter`: insert `b` right after the
first occurrence of `a`.  When `a ∉ links` the C++ computes `end() + 1`
(undefined behaviour), rendered here as a no-op (`insertIdx` past the
end); theorems relying on insertion assume `a ∈ links`. -/
def insertLinkAfter (links : List ℕ) (a b : ℕ) : List ℕ :=
  links.insertIdx (links.indexOf a + 1) b

/-- Embedding of `Model::ChangeLink(i, from, to)`. -/
def Model.ChangeLink (m : Model) (i a b : ℕ) : Model :=
  { m with m_Links := m.m_Links.set i (changeLink (m.m_Links.getD i []) a b) }

/-- Embedding of `Model::InsertLinkBefore(i, before, link)`. -/
def Model.InsertLinkBefore (m : Model) (i a b : ℕ) : Model :=
  { m with m_Links := m.m_Links.set i (insertLinkBefore (m.m_Links.getD i []) a b) }

/-- Embedding of `Model::InsertLinkAfter(i, after, link)`. -/
def Model.InsertLinkAfter (m : Model) (i a b : ℕ) : Model :=
  { m with m_Links := m.m_Links.set i (insertLinkAfter (m.m_Links.getD i []) a b) }

/-- Embedding of `Model::CellNormal`: fold `glm::triangleNormal(p0, p1, p2)`
over the fan of a cell's ordered neighbour ring, starting from the last
neighbour, then normalize the accumulated vector. -/
noncomputable def Model.CellNormal (m : Model) (index : ℕ) : Vec3 :=
  let links := m.m_Links.getD index []
  let p0 := m.m_Positions.getD index 0
  let start : Vec3 := m.m_Positions.getD (links.getLastD 0) 0
  glm.normalize
    (links.foldl
      (fun (acc : Vec3 × Vec3) i =>
        let p2 := m.m_Positions.getD i 0
        (acc.1 + glm.triangleNormal p0 acc.2 p2, p2))
      (0, start)).1

/-- Per-cell accumulator of the link-iteration pass of `Model::UpdateBatch`
(the local variables `repulsionVector`, `springTarget`, `planarTarget`,
`bulgeDistance`, `food`). -/
structure Accum where
  repulsionVector : Vec3
  springTarget : Vec3
  planarTarget : Vec3
  bulgeDistance : ℝ
  food : ℝ

/-- Link-iteration pass of `Model::UpdateBatch` for cell `i` (the first
`for (const int j : links)` loop): accumulate the spring target, planar
target, bulge distance, neighbour food, and the pre-subtracted repulsion
contribution of linked neighbours. -/
noncomputable def Model.accumulate (m : Model) (i : ℕ) : Accum :=
  let roi2 := m.m_RadiusOfInfluence * m.m_RadiusOfInfluence
  let link2 := m.m_LinkRestLength * m.m_LinkRestLength
  let P := m.m_Positions.getD i 0
  let N := m.CellNormal i
  (m.m_Links.getD i []).foldl
    (fun acc j =>
      let L := m.m_Positions.getD j 0
      let D := L - P
      let Dn := glm.normalize D
      { repulsionVector :=
          if glm.length2 D < roi2 then
            acc.repulsionVector + ((roi2 - glm.length2 D) / roi2) • Dn
          else acc.repulsionVector
        springTarget := acc.springTarget + (L - m.m_LinkRestLength • Dn)
        planarTarget := acc.planarTarget + L
        bulgeDistance := acc.bulgeDistance +
          (if glm.length2 D < link2 then
            Real.sqrt (link2 - glm.dot D D + glm.dot D N * glm.dot D N) + glm.dot D N
          else 0)
        food := acc.food + m.m_Food.getD j 0 })
    ⟨0, 0, 0, 0, 0⟩

/-- Averaging step of `Model::UpdateBatch`: multiply `springTarget`,
`planarTarget`, `bulgeDistance` and `food` by `1 / links.size()`
(the repulsion vector is not averaged in the source). -/
noncomputable def Model.averaged (m : Model) (i : ℕ) : Accum :=
  let a := m.accumulate i
  let mm := 1 / ((m.m_Links.getD i []).length : ℝ)
  { a with
    springTarget := mm • a.springTarget
    planarTarget := mm • a.planarTarget
    bulgeDistance := mm * a.bulgeDistance
    food := mm * a.food }

/-- Repulsion pass of `Model::UpdateBatch` for cell `i` (the
`for (const int j : m_Index.Nearby(P))` loop), starting from the
accumulated link-pass repulsion vector.  The spatial index is external
code; its answer is the parameter `nearby`. -/
noncomputable def Model.repulsionOf (m : Model) (nearby : Vec3 → List ℕ) (i : ℕ) : Vec3 :=
  let roi2 := m.m_RadiusOfInfluence * m.m_RadiusOfInfluence
  let P := m.m_Positions.getD i 0
  (nearby P).foldl
    (fun rv j =>
      if j = i then rv
      else
        let L := m.m_Positions.getD j 0
        let D := P - L
        if glm.length2 D < roi2 then rv + ((roi2 - glm.length2 D) / roi2) • glm.normalize D
        else rv)
    (m.averaged i).repulsionVector

/-- Result line of `Model::UpdateBatch` for cell `i`: the candidate new
position combining the four force terms. -/
noncomputable def Model.cellNewPosition (m : Model) (nearby : Vec3 → List ℕ) (i : ℕ) : Vec3 :=
  let P := m.m_Positions.getD i 0
  let N := m.CellNormal i
  let a := m.averaged i
  P + m.m_SpringFactor • (a.springTarget - P)
    + m.m_PlanarFactor • (a.planarTarget - P)
    + (m.m_BulgeFactor * a.bulgeDistance) • N
    + m.m_RepulsionFactor • m.repulsionOf nearby i

/-- Output buffers of the parallel phase: candidate positions, candidate
normals and the food buffer (which `UpdateBatch` receives but never
writes). -/
abbrev Buffers : Type := List Vec3 × List Vec3 × List ℝ

/-- Embedding of `Model::UpdateBatch(wi, wn, ...)`: the strided loop
`for (int i = wi; i < size; i += wn)` writing slot `i` of the position and
normal buffers.  For the worker indices the source uses (`0 ≤ wi < wn`)
the stride `{wi, wi+wn, ...}` is exactly `{i < size | i % wn = wi}`, which
is how the loop is rendered here.  All food-buffer writes in the source
are commented out, so the third buffer is passed through untouched. -/
noncomputable def Model.UpdateBatch (m : Model) (nearby : Vec3 → List ℕ) (wi wn : ℕ)
    (bufs : Buffers) : Buffers :=
  (List.range m.m_Positions.length).foldl
    (fun b i =>
      if i % wn = wi then
        (b.1.set i (m.cellNewPosition nearby i), b.2.1.set i (m.CellNormal i), b.2.2)
      else b)
    bufs

/-- Fan-out of `Model::UpdateWithThreadPool`: run `UpdateBatch` for every
worker index `wi < wn` over the same committed snapshot `m`.  The workers
run concurrently in the source but write disjoint buffer slots; the fold
models the joined result. -/
noncomputable def Model.runBatches (m : Model) (nearby : Vec3 → List ℕ) (wn : ℕ)
    (bufs : Buffers) : Buffers :=
  (List.range wn).foldl (fun b wi => m.UpdateBatch nearby wi wn b) bufs

/-- Values of the contiguous ring arc `links[start % n], links[(start+1) % n], ...`
(`count` entries), as walked by the three `for` loops of `Model::Split`. -/
def arcValues (links : List ℕ) (start count : ℕ) : List ℕ :=
  (List.range count).map (fun t => links.getD ((start + t) % links.length) 0)

/-- The `ChangeLink` loop of `Model::Split`
(`for (int i = i1 + 1; i <= i0 + n - 1; i++) ChangeLink(links[i % n], parentIndex, childIndex)`),
as a fold over the listed neighbour indices. -/
def Model.changeLinkAll (m : Model) (idxs : List ℕ) (a b : ℕ) : Model :=
  idxs.foldl (fun mm j => mm.ChangeLink j a b) m

/-- Embedding of `Model::Split(parentIndex)`.  The call
`RandomIntN(n)` that chooses the cleavage-arc start is externalised as the
parameter `i0` (the source draws it uniformly from `[0, n)`; every index
derived from it is reduced `% n` exactly as in the source).  The spatial
index updates (`m_Index.Update` / `m_Index.Add`) concern external state
and are omitted.  All other steps follow the source order: push the child
cell, rebuild the parent's links from the saved copy, build the child's
links, rewire the neighbours, recompute the two centroids from the as-yet
unmoved positions, write the two positions, recompute the two normals,
and reset the parent's food. -/
noncomputable def Model.Split (m : Model) (parentIndex i0 : ℕ) : Model :=
  let childIndex := m.m_Links.length
  let m1 : Model := { m with
    m_Positions := m.m_Positions ++ [m.m_Positions.getD parentIndex 0]
    m_Normals := m.m_Normals ++ [m.m_Normals.getD parentIndex 0]
    m_Food := m.m_Food ++ [0]
    m_Links := m.m_Links ++ [[]] }
  let links := m.m_Links.getD parentIndex []
  let n := links.length
  let i1 := i0 + n / 2
  let parentLinks := arcValues links i0 (n / 2 + 1) ++ [childIndex]
  let childLinks := arcValues links i1 (n - n / 2 + 1) ++ [parentIndex]
  let m2 : Model := { m1 with
    m_Links := (m1.m_Links.set parentIndex parentLinks).set childIndex childLinks }
  let m3 := m2.InsertLinkAfter (links.getD (i0 % n) 0) parentIndex childIndex
  let m4 := m3.InsertLinkBefore (links.getD (i1 % n) 0) parentIndex childIndex
  let m5 := m4.changeLinkAll (arcValues links (i1 + 1) (n - 1 - n / 2)) parentIndex childIndex
  let newParentPosition :=
    (((parentLinks.length : ℝ) + 1)⁻¹) •
      (m5.m_Positions.getD parentIndex 0 +
        (parentLinks.map (fun j => m5.m_Positions.getD j 0)).sum)
  let newChildPosition :=
    (((childLinks.length : ℝ) + 1)⁻¹) •
      (m5.m_Positions.getD childIndex 0 +
        (childLinks.map (fun j => m5.m_Positions.getD j 0)).sum)
  let m6 : Model := { m5 with
    m_Positions := (m5.m_Positions.set parentIndex newParentPosition).set childIndex newChildPosition }
  let m7 : Model := { m6 with
    m_Normals := (m6.m_Normals.set parentIndex (m6.CellNormal parentIndex)).set childIndex
      (m6.CellNormal childIndex) }
  { m7 with m_Food := m7.m_Food.set parentIndex 0 }

/-- The food-accumulation / split loop of `Model::Commit`
(`for (int i = 0; i < m_Food.size(); i++) { m_Food[i] += Random(0, 1); if (m_Food[i] > m_SplitThreshold) Split(i); }`).
Each iteration consumes one pre-drawn pair `(r, k)`: `r` is the
`Random(0, 1)` food increment and `k` the `RandomIntN` cleavage offset a
`Split` would use.  The loop bound is re-read every iteration, so cells
appended by `Split` are visited too; `none` means the supplied draw list
was too short to finish the loop (the result is then not a committed
step). -/
noncomputable def Model.splitLoop (m : Model) (i : ℕ) : List (ℝ × ℕ) → Option Model
  | [] => if i < m.m_Food.length then none else some m
  | d :: rest =>
    if i < m.m_Food.length then
      let m1 := { m with m_Food := m.m_Food.set i (m.m_Food.getD i 0 + d.1) }
      let m2 := if m1.m_Food.getD i 0 > m1.m_SplitThreshold then m1.Split i d.2 else m1
      m2.splitLoop (i + 1) rest
    else some m

/-- Embedding of `Model::Commit`: adopt the buffers produced by the
parallel phase, then run the sequential food / split loop.  (The spatial
index relocation loop concerns external state and is omitted.) -/
noncomputable def Model.Commit (m : Model) (newPositions newNormals : List Vec3)
    (newFood : List ℝ) (draws : List (ℝ × ℕ)) : Option Model :=
  ({ m with
      m_Positions := newPositions
      m_Normals := newNormals
      m_Food := newFood } : Model).splitLoop 0 draws

/-- Adjacency symmetry (spec section 3): `j ∈ links[i] ⟺ i ∈ links[j]`,
stated over valid indices so the predicate is decidable. -/
def LinkSymmetric (ls : List (List ℕ)) : Prop :=
  ∀ i < ls.length, ∀ j < ls.length, (j ∈ ls.getD i [] ↔ i ∈ ls.getD j [])

/-- Self-loop freedom (spec section 3): `i ∉ links[i]`. -/
def SelfLoopFree (ls : List (List ℕ)) : Prop :=
  ∀ i < ls.length, i ∉ ls.getD i []

/-- Every adjacency list is duplicate-free. -/
def LinkNodup (ls : List (List ℕ)) : Prop := ∀ l ∈ ls, l.Nodup

/-- Every stored neighbour index refers to an existing cell. -/
def LinkBounded (ls : List (List ℕ)) : Prop := ∀ l ∈ ls, ∀ x ∈ l, x < ls.length

/-- Combined well-formedness of the adjacency state. -/
def LinksWF (ls : List (List ℕ)) : Prop :=
  LinkSymmetric ls ∧ SelfLoopFree ls ∧ LinkNodup ls ∧ LinkBounded ls

instance (ls : List (List ℕ)) : Decidable (LinkSymmetric ls) :=
  inferInstanceAs (Decidable (∀ i < ls.length, ∀ j < ls.length,
    (j ∈ ls.getD i [] ↔ i ∈ ls.getD j [])))

instance (ls : List (List ℕ)) : Decidable (SelfLoopFree ls) :=
  inferInstanceAs (Decidable (∀ i < ls.length, i ∉ ls.getD i []))

instance (ls : List (List ℕ)) : Decidable (LinkNodup ls) :=
  inferInstanceAs (Decidable (∀ l ∈ ls, l.Nodup))

instance (ls : List (List ℕ)) : Decidable (LinkBounded ls) :=
  inferInstanceAs (Decidable (∀ l ∈ ls, ∀ x ∈ l, x < ls.length))

instance (ls : List (List ℕ)) : Decidable (LinksWF ls) :=
  inferInstanceAs (Decidable (_ ∧ _ ∧ _ ∧ _))

/-- One step of the reachability relation of the claim "any sequence of
construction, link mutation, and Split operations": the graph states
produced from a given state by the exported mutation calls. -/
inductive ReachableFrom (m0 : Model) : Model → Prop
  | base : ReachableFrom m0 m0
  | changeLink (m : Model) (i a b : ℕ) :
      ReachableFrom m0 m → ReachableFrom m0 (m.ChangeLink i a b)
  | insertBefore (m : Model) (i a b : ℕ) :
      ReachableFrom m0 m → ReachableFrom m0 (m.InsertLinkBefore i a b)
  | insertAfter (m : Model) (i a b : ℕ) :
      ReachableFrom m0 m → ReachableFrom m0 (m.InsertLinkAfter i a b)
  | split (m : Model) (p i0 : ℕ) :
      ReachableFrom m0 m → ReachableFrom m0 (m.Split p i0)

/-- Iterated splitting: apply `Model::Split` for each listed
`(parentIndex, arcStart)` pair in order. -/
noncomputable def Model.SplitSeq (m : Model) (ops : List (ℕ × ℕ)) : Model :=
  ops.foldl (fun mm pr => mm.Split pr.1 pr.2) m

/-- Side conditions under which a sequence of splits is performed: each
split targets an existing cell whose ring has at least two members at the
moment the split runs (cf. spec section 9: the minimum safely splittable
valence is left open by the source; valence 1 is degenerate). -/
def GoodSeq : Model → List (ℕ × ℕ) → Prop
  | _, [] => True
  | m, pr :: rest =>
    pr.1 < m.m_Links.length ∧ 2 ≤ (m.m_Links.getD pr.1 []).length ∧
      GoodSeq (m.Split pr.1 pr.2) rest

/-! Quantities `Model::Split` derives from the parent ring. -/

/-- The saved copy of the parent's neighbour ring (`const auto links`). -/
def ringOf (m : Model) (p : ℕ) : List ℕ := m.m_Links.getD p []

/-- The near cleavage boundary `links[i0 % n]`. -/
def bnd0 (m : Model) (p i0 : ℕ) : ℕ :=
  (ringOf m p).getD (i0 % (ringOf m p).length) 0

/-- The far cleavage boundary `links[i1 % n]`, `i1 = i0 + n / 2`. -/
def bnd1 (m : Model) (p i0 : ℕ) : ℕ :=
  (ringOf m p).getD ((i0 + (ringOf m p).length / 2) % (ringOf m p).length) 0

/-- The arc the parent keeps (`links[i0 % n] .. links[i1 % n]`). -/
def keptArc (m : Model) (p i0 : ℕ) : List ℕ :=
  arcValues (ringOf m p) i0 ((ringOf m p).length / 2 + 1)

/-- The reassigned interior arc (`links[(i1+1) % n] .. links[(i0+n-1) % n]`). -/
def interiorArc (m : Model) (p i0 : ℕ) : List ℕ :=
  arcValues (ringOf m p) (i0 + (ringOf m p).length / 2 + 1)
    ((ringOf m p).length - 1 - (ringOf m p).length / 2)

/-- The child's arc (`links[i1 % n] .. links[(i0+n) % n]`). -/
def childArcOf (m : Model) (p i0 : ℕ) : List ℕ :=
  arcValues (ringOf m p) (i0 + (ringOf m p).length / 2)
    ((ringOf m p).length - (ringOf m p).length / 2 + 1)

/-! Concrete states used to exercise the theorems. -/

/-- A seven-cell wheel: cell `0` carries a full valence-6 ring. -/
noncomputable def mWheel : Model :=
  { m_Positions := List.replicate 7 ((0 : ℝ), (0 : ℝ), (0 : ℝ))
    m_Normals := List.replicate 7 ((0 : ℝ), (0 : ℝ), (0 : ℝ))
    m_Food := List.replicate 7 0
    m_Links := [[1, 2, 3, 4, 5, 6], [0], [0], [0], [0], [0], [0]]
    m_LinkRestLength := 1
    m_SplitThreshold := 100
    m_RadiusOfInfluence := 1
    m_RepulsionFactor := 0
    m_SpringFactor := 0
    m_PlanarFactor := 0
    m_BulgeFactor := 0 }

/-- A well-formed three-cell state: one linked pair and one isolated cell. -/
noncomputable def mPair : Model :=
  { m_Positions := List.replicate 3 ((0 : ℝ), (0 : ℝ), (0 : ℝ))
    m_Normals := List.replicate 3 ((0 : ℝ), (0 : ℝ), (0 : ℝ))
    m_Food := List.replicate 3 0
    m_Links := [[1], [0], []]
    m_LinkRestLength := 1
    m_SplitThreshold := 100
    m_RadiusOfInfluence := 1
    m_RepulsionFactor := 0
    m_SpringFactor := 0
    m_PlanarFactor := 0
    m_BulgeFactor := 0 }

/-- Two linked cells at distance 2 with rest length 1: the spring target of
cell `0` is the point `(1, 0, 0)`. -/
noncomputable def mStretch : Model :=
  { m_Positions := [((0 : ℝ), (0 : ℝ), (0 : ℝ)), ((2 : ℝ), (0 : ℝ), (0 : ℝ))]
    m_Normals := [((0 : ℝ), (0 : ℝ), (0 : ℝ)), ((0 : ℝ), (0 : ℝ), (0 : ℝ))]
    m_Food := [0, 0]
    m_Links := [[1], [0]]
    m_LinkRestLength := 1
    m_SplitThreshold := 100
    m_RadiusOfInfluence := 1
    m_RepulsionFactor := 0
    m_SpringFactor := 0
    m_PlanarFactor := 0
    m_BulgeFactor := 0 }

/-- A single-cell state whose food sits half a unit below the threshold. -/
noncomputable def mEdge : Model :=
  { m_Positions := [((0 : ℝ), (0 : ℝ), (0 : ℝ))]
    m_Normals := [((0 : ℝ), (0 : ℝ), (0 : ℝ))]
    m_Food := [0]
    m_Links := [[]]
    m_LinkRestLength := 1
    m_SplitThreshold := 100
    m_RadiusOfInfluence := 1
    m_RepulsionFactor := 0
    m_SpringFactor := 0
    m_PlanarFactor := 0
    m_BulgeFactor := 0 }

/-! Helper lemmas about `List.getD`, `List.set` and appends. -/

lemma getD_set_self {α : Type} (ls : List α) (k : ℕ) (v d : α) (h : k < ls.length) :
    (ls.set k v).getD k d = v := by
  simp [List.getD_eq_getElem?_getD, List.getElem?_set_self h]

lemma getD_set_ne {α : Type} (ls : List α) {k j : ℕ} (v d : α) (h : k ≠ j) :
    (ls.set k v).getD j d = ls.getD j d := by
  simp [List.getD_eq_getElem?_getD, List.getElem?_set_ne h]

lemma getD_append_left {α : Type} (ls t : List α) {k : ℕ} (d : α) (h : k < ls.length) :
    (ls ++ t).getD k d = ls.getD k d := by
  simp [List.getD_eq_getElem?_getD, List.getElem?_append_left h]

lemma getD_append_length {α : Type} (ls : List α) (v d : α) :
    (ls ++ [v]).getD ls.length d = v := by
  simp [List.getD_eq_getElem?_getD, List.getElem?_concat_length]

lemma getD_of_length_le {α : Type} {ls : List α} {k : ℕ} (d : α) (h : ls.length ≤ k) :
    ls.getD k d = d := by
  simp [List.getD_eq_getElem?_getD, List.getElem?_eq_none h]

lemma getD_eq_get {α : Type} (ls : List α) {k : ℕ} (d : α) (h : k < ls.length) :
    ls.getD k d = ls.get ⟨k, h⟩ := by
  simp [List.getD_eq_getElem?_getD, List.getElem?_eq_getElem h]

lemma getD_mem {α : Type} {ls : List α} {k : ℕ} {d : α} (h : k < ls.length) :
    ls.getD k d ∈ ls := by
  rw [getD_eq_get ls d h]; exact ls.get_mem _ _

/-! Helper lemmas about the three link-mutation primitives.  Each is
characterised by its `nil` / matching-head / non-matching-head unfoldings
and the consequences used later. -/

lemma changeLink_nil (a b : ℕ) : changeLink [] a b = [] := rfl

lemma changeLink_cons_self (t : List ℕ) (a b : ℕ) : changeLink (a :: t) a b = b :: t := by
  simp [changeLink, List.indexOf_cons_self]

lemma changeLink_cons_ne {x a : ℕ} (t : List ℕ) (b : ℕ) (h : x ≠ a) :
    changeLink (x :: t) a b = x :: changeLink t a b := by
  simp [changeLink, List.indexOf_cons_ne _ h]

lemma insertLinkBefore_nil (a b : ℕ) : insertLinkBefore [] a b = [b] := rfl

lemma insertLinkBefore_cons_self (t : List ℕ) (a b : ℕ) :
    insertLinkBefore (a :: t) a b = b :: a :: t := by
  simp [insertLinkBefore, List.indexOf_cons_self, List.insertIdx_zero]

lemma insertLinkBefore_cons_ne {x a : ℕ} (t : List ℕ) (b : ℕ) (h : x ≠ a) :
    insertLinkBefore (x :: t) a b = x :: insertLinkBefore t a b := by
  simp [insertLinkBefore, List.indexOf_cons_ne _ h, List.insertIdx_succ_cons]

lemma insertLinkAfter_nil (a b : ℕ) : insertLinkAfter [] a b = [] := rfl

lemma insertLinkAfter_cons_self (t : List ℕ) (a b : ℕ) :
    insertLinkAfter (a :: t) a b = a :: b :: t := by
  simp [insertLinkAfter, List.indexOf_cons_self, List.insertIdx_succ_cons, List.insertIdx_zero]

lemma insertLinkAfter_cons_ne {x a : ℕ} (t : List ℕ) (b : ℕ) (h : x ≠ a) :
    insertLinkAfter (x :: t) a b = x :: insertLinkAfter t a b := by
  simp [insertLinkAfter, List.indexOf_cons_ne _ h, List.insertIdx_succ_cons]

lemma changeLink_of_not_mem {ls : List ℕ} {a : ℕ} (b : ℕ) (h : a ∉ ls) :
    changeLink ls a b = ls := by
  induction ls with
  | nil => rfl
  | cons x t ih =>
    have hxa : x ≠ a := fun hx => h (hx ▸ List.mem_cons_self x t)
    rw [changeLink_cons_ne t b hxa, ih (fun ht => h (List.mem_cons_of_mem x ht))]

lemma insertLinkAfter_of_not_mem {ls : List ℕ} {a : ℕ} (b : ℕ) (h : a ∉ ls) :
    insertLinkAfter ls a b = ls := by
  induction ls with
  | nil => rfl
  | cons x t ih =>
    have hxa : x ≠ a := fun hx => h (hx ▸ List.mem_cons_self x t)
    rw [insertLinkAfter_cons_ne t b hxa, ih (fun ht => h (List.mem_cons_of_mem x ht))]

lemma insertLinkBefore_of_not_mem {ls : List ℕ} {a : ℕ} (b : ℕ) (h : a ∉ ls) :
    insertLinkBefore ls a b = ls ++ [b] := by
  induction ls with
  | nil => rfl
  | cons x t ih =>
    have hxa : x ≠ a := fun hx => h (hx ▸ List.mem_cons_self x t)
    rw [insertLinkBefore_cons_ne t b hxa, ih (fun ht => h (List.mem_cons_of_mem x ht))]
    rfl

lemma changeLink_append_first (pre suf : List ℕ) (a b : ℕ) (h : a ∉ pre) :
    changeLink (pre ++ a :: suf) a b = pre ++ b :: suf := by
  induction pre with
  | nil => simpa using changeLink_cons_self suf a b
  | cons x t ih =>
    have hxa : x ≠ a := fun hx => h (hx ▸ List.mem_cons_self x t)
    have ht : a ∉ t := fun hm => h (List.mem_cons_of_mem x hm)
    show changeLink (x :: (t ++ a :: suf)) a b = x :: (t ++ b :: suf)
    rw [changeLink_cons_ne _ b hxa, ih ht]

lemma insertLinkBefore_append_first (pre suf : List ℕ) (a b : ℕ) (h : a ∉ pre) :
    insertLinkBefore (pre ++ a :: suf) a b = pre ++ b :: a :: suf := by
  induction pre with
  | nil => simpa using insertLinkBefore_cons_self suf a b
  | cons x t ih =>
    have hxa : x ≠ a := fun hx => h (hx ▸ List.mem_cons_self x t)
    have ht : a ∉ t := fun hm => h (List.mem_cons_of_mem x hm)
    show insertLinkBefore (x :: (t ++ a :: suf)) a b = x :: (t ++ b :: a :: suf)
    rw [insertLinkBefore_cons_ne _ b hxa, ih ht]

lemma insertLinkAfter_append_first (pre suf : List ℕ) (a b : ℕ) (h : a ∉ pre) :
    insertLinkAfter (pre ++ a :: suf) a b = pre ++ a :: b :: suf := by
  induction pre with
  | nil => simpa using insertLinkAfter_cons_self suf a b
  | cons x t ih =>
    have hxa : x ≠ a := fun hx => h (hx ▸ List.mem_cons_self x t)
    have ht : a ∉ t := fun hm => h (List.mem_cons_of_mem x hm)
    show insertLinkAfter (x :: (t ++ a :: suf)) a b = x :: (t ++ a :: b :: suf)
    rw [insertLinkAfter_cons_ne _ b hxa, ih ht]

/-- First-occurrence decomposition of a membership. -/
lemma exists_first_split {ls : List ℕ} {a : ℕ} (h : a ∈ ls) :
    ∃ pre suf, ls = pre ++ a :: suf ∧ a ∉ pre := by
  induction ls with
  | nil => cases h
  | cons x t ih =>
    by_cases hx : x = a
    · exact ⟨[], t, by rw [hx]; rfl, by simp⟩
    · have hat : a ∈ t := by
        rcases List.mem_cons.mp h with h' | h'
        · exact absurd h'.symm hx
        · exact h'
      rcases ih hat with ⟨pre, suf, hEq, hPre⟩
      refine ⟨x :: pre, suf, by rw [List.cons_append, hEq], ?_⟩
      intro hmem
      rcases List.mem_cons.mp hmem with h' | h'
      · exact hx h'.symm
      · exact hPre h'

lemma mem_changeLink_target {ls : List ℕ} {a : ℕ} (b : ℕ) (h : a ∈ ls) :
    b ∈ changeLink ls a b := by
  rcases exists_first_split h with ⟨pre, suf, hEq, hPre⟩
  rw [hEq, changeLink_append_first pre suf a b hPre]
  simp

lemma mem_changeLink_of_mem {ls : List ℕ} {a b x : ℕ} (hx : x ∈ ls) (hxa : x ≠ a) :
    x ∈ changeLink ls a b := by
  by_cases h : a ∈ ls
  · rcases exists_first_split h with ⟨pre, suf, hEq, hPre⟩
    rw [hEq, changeLink_append_first pre suf a b hPre]
    rw [hEq] at hx
    rcases List.mem_append.mp hx with h' | h'
    · exact List.mem_append.mpr (Or.inl h')
    · rcases List.mem_cons.mp h' with h'' | h''
      · exact absurd h'' hxa
      · exact List.mem_append.mpr (Or.inr (List.mem_cons_of_mem _ h''))
  · rw [changeLink_of_not_mem b h]; exact hx

lemma mem_of_mem_changeLink {ls : List ℕ} {a b x : ℕ} (h : x ∈ changeLink ls a b) :
    x = b ∨ x ∈ ls := by
  rcases List.mem_or_eq_of_mem_set h with h' | h'
  · exact Or.inr h'
  · exact Or.inl h'

lemma not_mem_changeLink {ls : List ℕ} {a b : ℕ} (hnd : ls.Nodup) (hab : a ≠ b)
    (hmem : a ∈ ls) : a ∉ changeLink ls a b := by
  rcases exists_first_split hmem with ⟨pre, suf, hEq, hPre⟩
  rw [hEq, changeLink_append_first pre suf a b hPre]
  rw [hEq] at hnd
  intro hcontra
  rcases List.mem_append.mp hcontra with h' | h'
  · exact hPre h'
  · rcases List.mem_cons.mp h' with h'' | h''
    · exact hab h''
    · exact (List.nodup_cons.mp (List.nodup_append.mp hnd).2.1).1 h''

lemma length_changeLink (ls : List ℕ) (a b : ℕ) :
    (changeLink ls a b).length = ls.length := by
  simp [changeLink]

lemma nodup_changeLink {ls : List ℕ} {a b : ℕ} (hnd : ls.Nodup) (hb : b ∉ ls) :
    (changeLink ls a b).Nodup := by
  by_cases h : a ∈ ls
  · rcases exists_first_split h with ⟨pre, suf, hEq, hPre⟩
    rw [hEq, changeLink_append_first pre suf a b hPre]
    rw [hEq] at hnd hb
    rcases List.nodup_append.mp hnd with ⟨h1, h2, h3⟩
    refine List.nodup_append.mpr ⟨h1, ?_, ?_⟩
    · exact List.nodup_cons.mpr ⟨fun hc => hb (List.mem_append.mpr
        (Or.inr (List.mem_cons_of_mem _ hc))), (List.nodup_cons.mp h2).2⟩
    · intro x hx1 hx2
      rcases List.mem_cons.mp hx2 with h' | h'
      · exact hb (h' ▸ List.mem_append.mpr (Or.inl hx1))
      · exact h3 hx1 (List.mem_cons_of_mem _ h')
  · rw [changeLink_of_not_mem b h]; exact hnd

lemma mem_insertLinkBefore_target (ls : List ℕ) (a b : ℕ) : b ∈ insertLinkBefore ls a b := by
  by_cases h : a ∈ ls
  · rcases exists_first_split h with ⟨pre, suf, hEq, hPre⟩
    rw [hEq, insertLinkBefore_append_first pre suf a b hPre]
    simp
  · rw [insertLinkBefore_of_not_mem b h]; simp

lemma mem_insertLinkAfter_target {ls : List ℕ} {a : ℕ} (b : ℕ) (h : a ∈ ls) :
    b ∈ insertLinkAfter ls a b := by
  rcases exists_first_split h with ⟨pre, suf, hEq, hPre⟩
  rw [hEq, insertLinkAfter_append_first pre suf a b hPre]
  simp

lemma mem_insertLinkBefore_of_mem {ls : List ℕ} (a b : ℕ) {x : ℕ} (hx : x ∈ ls) :
    x ∈ insertLinkBefore ls a b := by
  by_cases h : a ∈ ls
  · rcases exists_first_split h with ⟨pre, suf, hEq, hPre⟩
    rw [hEq, insertLinkBefore_append_first pre suf a b hPre]
    rw [hEq] at hx
    rcases List.mem_append.mp hx with h' | h'
    · exact List.mem_append.mpr (Or.inl h')
    · exact List.mem_append.mpr (Or.inr (List.mem_cons_of_mem _ h'))
  · rw [insertLinkBefore_of_not_mem b h]
    exact List.mem_append.mpr (Or.inl hx)

lemma mem_insertLinkAfter_of_mem {ls : List ℕ} (a b : ℕ) {x : ℕ} (hx : x ∈ ls) :
    x ∈ insertLinkAfter ls a b := by
  by_cases h : a ∈ ls
  · rcases exists_first_split h with ⟨pre, suf, hEq, hPre⟩
    rw [hEq, insertLinkAfter_append_first pre suf a b hPre]
    rw [hEq] at hx
    rcases List.mem_append.mp hx with h' | h'
    · exact List.mem_append.mpr (Or.inl h')
    · rcases List.mem_cons.mp h' with h'' | h''
      · exact List.mem_append.mpr (Or.inr (List.mem_cons.mpr (Or.inl h'')))
      · exact List.mem_append.mpr (Or.inr (by simp [h'']))
  · rw [insertLinkAfter_of_not_mem b h]; exact hx

lemma mem_of_mem_insertLinkBefore {ls : List ℕ} {a b x : ℕ}
    (h : x ∈ insertLinkBefore ls a b) : x = b ∨ x ∈ ls := by
  by_cases ha : a ∈ ls
  · rcases exists_first_split ha with ⟨pre, suf, hEq, hPre⟩
    rw [hEq] at h ⊢
    rw [insertLinkBefore_append_first pre suf a b hPre] at h
    rcases List.mem_append.mp h with h' | h'
    · exact Or.inr (List.mem_append.mpr (Or.inl h'))
    · rcases List.mem_cons.mp h' with h'' | h''
      · exact Or.inl h''
      · exact Or.inr (List.mem_append.mpr (Or.inr h''))
  · rw [insertLinkBefore_of_not_mem b ha] at h
    rcases List.mem_append.mp h with h' | h'
    · exact Or.inr h'
    · exact Or.inl (by simpa using h')

lemma mem_of_mem_insertLinkAfter {ls : List ℕ} {a b x : ℕ}
    (h : x ∈ insertLinkAfter ls a b) : x = b ∨ x ∈ ls := by
  by_cases ha : a ∈ ls
  · rcases exists_first_split ha with ⟨pre, suf, hEq, hPre⟩
    rw [hEq] at h ⊢
    rw [insertLinkAfter_append_first pre suf a b hPre] at h
    rcases List.mem_append.mp h with h' | h'
    · exact Or.inr (List.mem_append.mpr (Or.inl h'))
    · rcases List.mem_cons.mp h' with h'' | h''
      · exact Or.inr (by simp [h''])
      · rcases List.mem_cons.mp h'' with h3 | h3
        · exact Or.inl h3
        · exact Or.inr (List.mem_append.mpr (Or.inr (List.mem_cons_of_mem _ h3)))
  · rw [insertLinkAfter_of_not_mem b ha] at h; exact Or.inr h

lemma length_insertLinkBefore (ls : List ℕ) (a b : ℕ) :
    (insertLinkBefore ls a b).length = ls.length + 1 := by
  by_cases h : a ∈ ls
  · rcases exists_first_split h with ⟨pre, suf, hEq, hPre⟩
    rw [hEq, insertLinkBefore_append_first pre suf a b hPre]
    simp; omega
  · rw [insertLinkBefore_of_not_mem b h]; simp

lemma length_insertLinkAfter {ls : List ℕ} {a : ℕ} (b : ℕ) (h : a ∈ ls) :
    (insertLinkAfter ls a b).length = ls.length + 1 := by
  rcases exists_first_split h with ⟨pre, suf, hEq, hPre⟩
  rw [hEq, insertLinkAfter_append_first pre suf a b hPre]
  simp; omega

lemma nodup_insertLinkBefore {ls : List ℕ} (a : ℕ) {b : ℕ} (hnd : ls.Nodup) (hb : b ∉ ls) :
    (insertLinkBefore ls a b).Nodup := by
  by_cases h : a ∈ ls
  · rcases exists_first_split h with ⟨pre, suf, hEq, hPre⟩
    rw [hEq, insertLinkBefore_append_first pre suf a b hPre]
    rw [hEq] at hnd hb
    rcases List.nodup_append.mp hnd with ⟨h1, h2, h3⟩
    refine List.nodup_append.mpr ⟨h1, ?_, ?_⟩
    · exact List.nodup_cons.mpr ⟨fun hc => hb (List.mem_append.mpr (Or.inr hc)), h2⟩
    · intro x hx1 hx2
      rcases List.mem_cons.mp hx2 with h' | h'
      · exact hb (h' ▸ List.mem_append.mpr (Or.inl hx1))
      · exact h3 hx1 h'
  · rw [insertLinkBefore_of_not_mem b h]
    refine List.nodup_append.mpr ⟨hnd, List.nodup_singleton b, ?_⟩
    intro x hx1 hx2
    have hxb : x = b := by simpa using hx2
    exact hb (hxb ▸ hx1)

lemma nodup_insertLinkAfter {ls : List ℕ} (a : ℕ) {b : ℕ} (hnd : ls.Nodup) (hb : b ∉ ls) :
    (insertLinkAfter ls a b).Nodup := by
  by_cases h : a ∈ ls
  · rcases exists_first_split h with ⟨pre, suf, hEq, hPre⟩
    rw [hEq, insertLinkAfter_append_first pre suf a b hPre]
    rw [hEq] at hnd hb
    rcases List.nodup_append.mp hnd with ⟨h1, h2, h3⟩
    rcases List.nodup_cons.mp h2 with ⟨h4, h5⟩
    refine List.nodup_append.mpr ⟨h1, ?_, ?_⟩
    · refine List.nodup_cons.mpr ⟨?_, List.nodup_cons.mpr
        ⟨fun hc => hb (List.mem_append.mpr (Or.inr (List.mem_cons_of_mem _ hc))), h5⟩⟩
      intro hc
      rcases List.mem_cons.mp hc with h' | h'
      · exact hb (h' ▸ List.mem_append.mpr (Or.inr (List.mem_cons_self a suf)))
      · exact h4 h'
    · intro x hx1 hx2
      rcases List.mem_cons.mp hx2 with h' | h'
      · exact h3 hx1 (h' ▸ List.mem_cons_self a suf)
      · rcases List.mem_cons.mp h' with h'' | h''
        · exact hb (h'' ▸ List.mem_append.mpr (Or.inl hx1))
        · exact h3 hx1 (List.mem_cons_of_mem _ h'')
  · rw [insertLinkAfter_of_not_mem b h]; exact hnd

/-! Model-level behaviour of the wrappers and of the `ChangeLink` loop. -/

lemma ChangeLink_getD_self (m : Model) (j a b : ℕ) :
    (m.ChangeLink j a b).m_Links.getD j [] = changeLink (m.m_Links.getD j []) a b := by
  by_cases hj : j < m.m_Links.length
  · exact getD_set_self _ _ _ _ hj
  · have h1 : m.m_Links.getD j [] = [] := getD_of_length_le _ (Nat.le_of_not_lt hj)
    have h2 : (m.ChangeLink j a b).m_Links.getD j [] = [] := by
      refine getD_of_length_le _ ?_
      simpa [Model.ChangeLink] using Nat.le_of_not_lt hj
    rw [h1, h2]; rfl

lemma ChangeLink_getD_ne (m : Model) {j k : ℕ} (a b : ℕ) (h : j ≠ k) :
    (m.ChangeLink j a b).m_Links.getD k [] = m.m_Links.getD k [] :=
  getD_set_ne _ _ _ h

lemma ChangeLink_links_length (m : Model) (j a b : ℕ) :
    (m.ChangeLink j a b).m_Links.length = m.m_Links.length := by
  simp [Model.ChangeLink]

lemma changeLinkAll_fields (m : Model) (idxs : List ℕ) (a b : ℕ) :
    (m.changeLinkAll idxs a b).m_Positions = m.m_Positions ∧
    (m.changeLinkAll idxs a b).m_Normals = m.m_Normals ∧
    (m.changeLinkAll idxs a b).m_Food = m.m_Food ∧
    (m.changeLinkAll idxs a b).m_SplitThreshold = m.m_SplitThreshold := by
  induction idxs generalizing m with
  | nil => exact ⟨rfl, rfl, rfl, rfl⟩
  | cons j rest ih =>
    have h := ih (m.ChangeLink j a b)
    simpa [Model.changeLinkAll, Model.ChangeLink] using h

lemma changeLinkAll_links_length (m : Model) (idxs : List ℕ) (a b : ℕ) :
    (m.changeLinkAll idxs a b).m_Links.length = m.m_Links.length := by
  induction idxs generalizing m with
  | nil => rfl
  | cons j rest ih =>
    have h := ih (m.ChangeLink j a b)
    simpa [Model.changeLinkAll, ChangeLink_links_length] using h

lemma changeLinkAll_getD_not_mem (m : Model) {idxs : List ℕ} (a b : ℕ) {k : ℕ}
    (h : k ∉ idxs) :
    (m.changeLinkAll idxs a b).m_Links.getD k [] = m.m_Links.getD k [] := by
  induction idxs generalizing m with
  | nil => rfl
  | cons j rest ih =>
    have hjk : j ≠ k := fun hc => h (hc ▸ List.mem_cons_self j rest)
    have hrest : k ∉ rest := fun hc => h (List.mem_cons_of_mem _ hc)
    calc (m.changeLinkAll (j :: rest) a b).m_Links.getD k []
        = ((m.ChangeLink j a b).changeLinkAll rest a b).m_Links.getD k [] := rfl
      _ = (m.ChangeLink j a b).m_Links.getD k [] := ih _ hrest
      _ = m.m_Links.getD k [] := ChangeLink_getD_ne m a b hjk

lemma changeLinkAll_getD_mem (m : Model) {idxs : List ℕ} (a b : ℕ) {k : ℕ}
    (hnd : idxs.Nodup) (hk : k ∈ idxs) :
    (m.changeLinkAll idxs a b).m_Links.getD k [] = changeLink (m.m_Links.getD k []) a b := by
  induction idxs generalizing m with
  | nil => cases hk
  | cons j rest ih =>
    rcases List.nodup_cons.mp hnd with ⟨hj, hrest⟩
    rcases List.mem_cons.mp hk with h' | h'
    · subst h'
      calc (m.changeLinkAll (k :: rest) a b).m_Links.getD k []
          = ((m.ChangeLink k a b).changeLinkAll rest a b).m_Links.getD k [] := rfl
        _ = (m.ChangeLink k a b).m_Links.getD k [] := changeLinkAll_getD_not_mem _ a b hj
        _ = changeLink (m.m_Links.getD k []) a b := ChangeLink_getD_self m k a b
    · have hjk : j ≠ k := fun hc => hj (hc ▸ h')
      calc (m.changeLinkAll (j :: rest) a b).m_Links.getD k []
          = ((m.ChangeLink j a b).changeLinkAll rest a b).m_Links.getD k [] := rfl
        _ = changeLink ((m.ChangeLink j a b).m_Links.getD k []) a b := ih _ hrest h'
        _ = changeLink (m.m_Links.getD k []) a b := by rw [ChangeLink_getD_ne m a b hjk]

/-! Lemmas about arc walks over the neighbour ring. -/

lemma length_arcValues (L : List ℕ) (s c : ℕ) : (arcValues L s c).length = c := by
  simp [arcValues]

lemma mem_arcValues {L : List ℕ} {s c x : ℕ} :
    x ∈ arcValues L s c ↔ ∃ t, t < c ∧ x = L.getD ((s + t) % L.length) 0 := by
  simp only [arcValues, List.mem_map, List.mem_range]
  constructor
  · rintro ⟨t, ht, rfl⟩; exact ⟨t, ht, rfl⟩
  · rintro ⟨t, ht, rfl⟩; exact ⟨t, ht, rfl⟩

lemma arcValues_subset {L : List ℕ} {s c : ℕ} (hL : 1 ≤ L.length) :
    ∀ x ∈ arcValues L s c, x ∈ L := by
  intro x hx
  rcases mem_arcValues.mp hx with ⟨t, _, rfl⟩
  exact getD_mem (Nat.mod_lt _ (Nat.lt_of_lt_of_le Nat.zero_lt_one hL))

lemma arcValues_append (L : List ℕ) (s c1 c2 : ℕ) :
    arcValues L s (c1 + c2) = arcValues L s c1 ++ arcValues L (s + c1) c2 := by
  simp only [arcValues, List.range_add, List.map_append, List.map_map]
  congr 1
  apply List.map_congr_left
  intro t _
  simp [Function.comp, Nat.add_assoc]

lemma arcValues_one (L : List ℕ) (s : ℕ) : arcValues L s 1 = [L.getD (s % L.length) 0] := by
  simp [arcValues, List.range_succ]

lemma arcValues_zero (L : List ℕ) (s : ℕ) : arcValues L s 0 = [] := by
  simp [arcValues]

/-- Distinct offsets below `n` give distinct residues along the ring walk. -/
lemma arc_residue_inj {n s t1 t2 : ℕ} (h1 : t1 < n) (h2 : t2 < n)
    (h : (s + t1) % n = (s + t2) % n) : t1 = t2 := by
  have hmod : t1 ≡ t2 [MOD n] := Nat.ModEq.add_left_cancel' s h
  calc t1 = t1 % n := (Nat.mod_eq_of_lt h1).symm
    _ = t2 % n := hmod
    _ = t2 := Nat.mod_eq_of_lt h2

/-- Entries of a duplicate-free ring at distinct indices are distinct. -/
lemma getD_ne_of_index_ne {L : List ℕ} (hnd : L.Nodup) {r1 r2 : ℕ}
    (h1 : r1 < L.length) (h2 : r2 < L.length) (hne : r1 ≠ r2) :
    L.getD r1 0 ≠ L.getD r2 0 := by
  rw [getD_eq_get L 0 h1, getD_eq_get L 0 h2]
  intro hc
  have hfin := hnd.get_inj_iff.mp hc
  exact hne (by simpa using hfin)

lemma nodup_arcValues {L : List ℕ} {s c : ℕ} (hnd : L.Nodup) (hc : c ≤ L.length) :
    (arcValues L s c).Nodup := by
  have hn : 1 ≤ L.length ∨ c = 0 := by omega
  rcases hn with hn | hn
  · refine List.Nodup.map_on ?_ (List.nodup_range c)
    intro t1 ht1 t2 ht2 hEq
    have h1 : t1 < c := List.mem_range.mp ht1
    have h2 : t2 < c := List.mem_range.mp ht2
    by_contra hne
    have hr1 : (s + t1) % L.length < L.length := Nat.mod_lt _ (by omega)
    have hr2 : (s + t2) % L.length < L.length := Nat.mod_lt _ (by omega)
    have hrne : (s + t1) % L.length ≠ (s + t2) % L.length := by
      intro hc'
      exact hne (arc_residue_inj (by omega) (by omega) hc')
    exact getD_ne_of_index_ne hnd hr1 hr2 hrne hEq
  · subst hn; simp [arcValues_zero]

/-- The full ring walk visits exactly the ring members. -/
lemma mem_arcValues_full {L : List ℕ} {s x : ℕ} (h1 : 1 ≤ L.length) :
    x ∈ arcValues L s L.length ↔ x ∈ L := by
  constructor
  · exact arcValues_subset h1 x
  · intro hx
    rcases List.mem_iff_get.mp hx with ⟨⟨t0, ht0⟩, rfl⟩
    have hn : 0 < L.length := h1
    obtain ⟨r, hrlt, hrs⟩ : ∃ r, r < L.length ∧ s % L.length = r :=
      ⟨s % L.length, Nat.mod_lt _ hn, rfl⟩
    refine mem_arcValues.mpr ⟨(t0 + L.length - r) % L.length, Nat.mod_lt _ hn, ?_⟩
    have hmodeq : (s + (t0 + L.length - r) % L.length) ≡ t0 [MOD L.length] := by
      calc (s + (t0 + L.length - r) % L.length)
          ≡ s + (t0 + L.length - r) [MOD L.length] :=
            Nat.ModEq.add_left s (Nat.mod_modEq _ _)
        _ ≡ r + (t0 + L.length - r) [MOD L.length] := by
            refine Nat.ModEq.add_right _ ?_
            rw [← hrs]
            exact (Nat.mod_modEq s L.length).symm
        _ = t0 + L.length := by omega
        _ ≡ t0 [MOD L.length] := by
            show (t0 + L.length) % L.length = t0 % L.length
            exact Nat.add_mod_right t0 L.length
    have hkey : (s + (t0 + L.length - r) % L.length) % L.length = t0 := by
      have h5 : (s + (t0 + L.length - r) % L.length) % L.length = t0 % L.length := hmodeq
      rw [h5, Nat.mod_eq_of_lt ht0]
    rw [hkey, getD_eq_get L 0 ht0]

/-! Per-index characterisation of the adjacency state after `Model::Split`. -/

lemma InsertLinkAfter_getD_ne (m : Model) {j k : ℕ} (a b : ℕ) (h : j ≠ k) :
    (m.InsertLinkAfter j a b).m_Links.getD k [] = m.m_Links.getD k [] :=
  getD_set_ne _ _ _ h

lemma InsertLinkBefore_getD_ne (m : Model) {j k : ℕ} (a b : ℕ) (h : j ≠ k) :
    (m.InsertLinkBefore j a b).m_Links.getD k [] = m.m_Links.getD k [] :=
  getD_set_ne _ _ _ h

lemma InsertLinkAfter_getD_self (m : Model) (j a b : ℕ) (h : j < m.m_Links.length) :
    (m.InsertLinkAfter j a b).m_Links.getD j [] = insertLinkAfter (m.m_Links.getD j []) a b :=
  getD_set_self _ _ _ _ h

lemma InsertLinkBefore_getD_self (m : Model) (j a b : ℕ) (h : j < m.m_Links.length) :
    (m.InsertLinkBefore j a b).m_Links.getD j [] = insertLinkBefore (m.m_Links.getD j []) a b :=
  getD_set_self _ _ _ _ h

lemma InsertLinkAfter_links_length (m : Model) (j a b : ℕ) :
    (m.InsertLinkAfter j a b).m_Links.length = m.m_Links.length := by
  simp [Model.InsertLinkAfter]

lemma InsertLinkBefore_links_length (m : Model) (j a b : ℕ) :
    (m.InsertLinkBefore j a b).m_Links.length = m.m_Links.length := by
  simp [Model.InsertLinkBefore]

/-- Interior arc members differ from the two boundary neighbours. -/
lemma interior_ne_boundary {L : List ℕ} (hnd : L.Nodup) (h2 : 2 ≤ L.length) (i0 : ℕ) {k : ℕ}
    (hk : k ∈ arcValues L (i0 + L.length / 2 + 1) (L.length - 1 - L.length / 2)) :
    k ≠ L.getD (i0 % L.length) 0 ∧ k ≠ L.getD ((i0 + L.length / 2) % L.length) 0 := by
  rcases mem_arcValues.mp hk with ⟨t, ht, rfl⟩
  have hregroup : i0 + L.length / 2 + 1 + t = i0 + (L.length / 2 + 1 + t) := by omega
  rw [hregroup]
  constructor
  · refine getD_ne_of_index_ne hnd (Nat.mod_lt _ (by omega)) (Nat.mod_lt _ (by omega)) ?_
    intro hc
    have h0 : (i0 + (L.length / 2 + 1 + t)) % L.length = (i0 + 0) % L.length := by
      rw [Nat.add_zero]; exact hc
    have := @arc_residue_inj L.length i0 (L.length / 2 + 1 + t) 0 (by omega) (by omega) h0
    omega
  · refine getD_ne_of_index_ne hnd (Nat.mod_lt _ (by omega)) (Nat.mod_lt _ (by omega)) ?_
    intro hc
    have := @arc_residue_inj L.length i0 (L.length / 2 + 1 + t) (L.length / 2)
      (by omega) (by omega) hc
    omega

/-- The kept arc and the reassigned interior arc of a split share no member. -/
lemma kept_interior_disjoint {L : List ℕ} (hnd : L.Nodup) (hn : 1 ≤ L.length) (i0 : ℕ) {x : ℕ}
    (hx1 : x ∈ arcValues L i0 (L.length / 2 + 1))
    (hx2 : x ∈ arcValues L (i0 + L.length / 2 + 1) (L.length - 1 - L.length / 2)) : False := by
  rcases mem_arcValues.mp hx1 with ⟨t1, ht1, hv1⟩
  rcases mem_arcValues.mp hx2 with ⟨t2, ht2, hv2⟩
  have hregroup : i0 + L.length / 2 + 1 + t2 = i0 + (L.length / 2 + 1 + t2) := by omega
  rw [hregroup] at hv2
  have hne : (i0 + t1) % L.length ≠ (i0 + (L.length / 2 + 1 + t2)) % L.length := by
    intro hc
    have := @arc_residue_inj L.length i0 t1 (L.length / 2 + 1 + t2)
      (by omega) (by omega) hc
    omega
  exact getD_ne_of_index_ne hnd (Nat.mod_lt _ (by omega)) (Nat.mod_lt _ (by omega)) hne
    (hv1 ▸ hv2 ▸ rfl)

/-- The two boundary neighbours of a split are distinct cells (ring ≥ 2). -/
lemma boundary_ne {L : List ℕ} (hnd : L.Nodup) (h2 : 2 ≤ L.length) (i0 : ℕ) :
    L.getD (i0 % L.length) 0 ≠ L.getD ((i0 + L.length / 2) % L.length) 0 := by
  refine getD_ne_of_index_ne hnd (Nat.mod_lt _ (by omega)) (Nat.mod_lt _ (by omega)) ?_
  intro hc
  have h0 : (i0 + 0) % L.length = (i0 + L.length / 2) % L.length := by
    rw [Nat.add_zero]; exact hc
  have := @arc_residue_inj L.length i0 0 (L.length / 2) (by omega) (by omega) h0
  omega

lemma split_links_length (m : Model) (p i0 : ℕ) :
    (m.Split p i0).m_Links.length = m.m_Links.length + 1 := by
  simp only [Model.Split]
  rw [changeLinkAll_links_length, InsertLinkBefore_links_length, InsertLinkAfter_links_length]
  simp

lemma split_links_getD_parent (m : Model) (p i0 : ℕ)
    (hp : p < m.m_Links.length)
    (hn : 1 ≤ (m.m_Links.getD p []).length)
    (hirr : p ∉ m.m_Links.getD p []) :
    (m.Split p i0).m_Links.getD p [] =
      arcValues (m.m_Links.getD p []) i0 ((m.m_Links.getD p []).length / 2 + 1)
        ++ [m.m_Links.length] := by
  have hb0mem : (m.m_Links.getD p []).getD (i0 % (m.m_Links.getD p []).length) 0
      ∈ m.m_Links.getD p [] := getD_mem (Nat.mod_lt _ (by omega))
  have hb1mem : (m.m_Links.getD p []).getD
      ((i0 + (m.m_Links.getD p []).length / 2) % (m.m_Links.getD p []).length) 0
      ∈ m.m_Links.getD p [] := getD_mem (Nat.mod_lt _ (by omega))
  have hb0p : (m.m_Links.getD p []).getD (i0 % (m.m_Links.getD p []).length) 0 ≠ p := by
    intro hc
    rw [hc] at hb0mem
    exact hirr hb0mem
  have hb1p : (m.m_Links.getD p []).getD
      ((i0 + (m.m_Links.getD p []).length / 2) % (m.m_Links.getD p []).length) 0 ≠ p := by
    intro hc
    rw [hc] at hb1mem
    exact hirr hb1mem
  have hintp : p ∉ arcValues (m.m_Links.getD p []) (i0 + (m.m_Links.getD p []).length / 2 + 1)
      ((m.m_Links.getD p []).length - 1 - (m.m_Links.getD p []).length / 2) :=
    fun hc => hirr (arcValues_subset hn p hc)
  simp only [Model.Split]
  rw [changeLinkAll_getD_not_mem _ _ _ hintp]
  rw [InsertLinkBefore_getD_ne _ _ _ hb1p]
  rw [InsertLinkAfter_getD_ne _ _ _ hb0p]
  rw [getD_set_ne _ _ _ (by omega : m.m_Links.length ≠ p)]
  exact getD_set_self _ _ _ _ (by simpa using by omega)

lemma split_links_getD_child (m : Model) (p i0 : ℕ)
    (hp : p < m.m_Links.length)
    (hn : 1 ≤ (m.m_Links.getD p []).length)
    (hbd : ∀ x ∈ m.m_Links.getD p [], x < m.m_Links.length) :
    (m.Split p i0).m_Links.getD m.m_Links.length [] =
      arcValues (m.m_Links.getD p []) (i0 + (m.m_Links.getD p []).length / 2)
        ((m.m_Links.getD p []).length - (m.m_Links.getD p []).length / 2 + 1) ++ [p] := by
  have hb0mem : (m.m_Links.getD p []).getD (i0 % (m.m_Links.getD p []).length) 0
      ∈ m.m_Links.getD p [] := getD_mem (Nat.mod_lt _ (by omega))
  have hb1mem : (m.m_Links.getD p []).getD
      ((i0 + (m.m_Links.getD p []).length / 2) % (m.m_Links.getD p []).length) 0
      ∈ m.m_Links.getD p [] := getD_mem (Nat.mod_lt _ (by omega))
  have hb0c : (m.m_Links.getD p []).getD (i0 % (m.m_Links.getD p []).length) 0
      ≠ m.m_Links.length := Nat.ne_of_lt (hbd _ hb0mem)
  have hb1c : (m.m_Links.getD p []).getD
      ((i0 + (m.m_Links.getD p []).length / 2) % (m.m_Links.getD p []).length) 0
      ≠ m.m_Links.length := Nat.ne_of_lt (hbd _ hb1mem)
  have hintc : m.m_Links.length ∉
      arcValues (m.m_Links.getD p []) (i0 + (m.m_Links.getD p []).length / 2 + 1)
        ((m.m_Links.getD p []).length - 1 - (m.m_Links.getD p []).length / 2) := by
    intro hc
    exact absurd (hbd _ (arcValues_subset hn _ hc)) (lt_irrefl _)
  simp only [Model.Split]
  rw [changeLinkAll_getD_not_mem _ _ _ hintc]
  rw [InsertLinkBefore_getD_ne _ _ _ hb1c]
  rw [InsertLinkAfter_getD_ne _ _ _ hb0c]
  exact getD_set_self _ _ _ _ (by simpa using by omega)

lemma split_links_getD_b0 (m : Model) (p i0 : ℕ)
    (hp : p < m.m_Links.length)
    (h2 : 2 ≤ (m.m_Links.getD p []).length)
    (hirr : p ∉ m.m_Links.getD p [])
    (hbd : ∀ x ∈ m.m_Links.getD p [], x < m.m_Links.length)
    (hnd : (m.m_Links.getD p []).Nodup) :
    (m.Split p i0).m_Links.getD ((m.m_Links.getD p []).getD
        (i0 % (m.m_Links.getD p []).length) 0) [] =
      insertLinkAfter (m.m_Links.getD ((m.m_Links.getD p []).getD
        (i0 % (m.m_Links.getD p []).length) 0) []) p m.m_Links.length := by
  have hb0mem : (m.m_Links.getD p []).getD (i0 % (m.m_Links.getD p []).length) 0
      ∈ m.m_Links.getD p [] := getD_mem (Nat.mod_lt _ (by omega))
  have hb0p : (m.m_Links.getD p []).getD (i0 % (m.m_Links.getD p []).length) 0 ≠ p := by
    intro hc
    rw [hc] at hb0mem
    exact hirr hb0mem
  have hb0c : (m.m_Links.getD p []).getD (i0 % (m.m_Links.getD p []).length) 0
      ≠ m.m_Links.length := Nat.ne_of_lt (hbd _ hb0mem)
  have hb1b0 : (m.m_Links.getD p []).getD
      ((i0 + (m.m_Links.getD p []).length / 2) % (m.m_Links.getD p []).length) 0
      ≠ (m.m_Links.getD p []).getD (i0 % (m.m_Links.getD p []).length) 0 :=
    (boundary_ne hnd h2 i0).symm
  have hintb0 : (m.m_Links.getD p []).getD (i0 % (m.m_Links.getD p []).length) 0 ∉
      arcValues (m.m_Links.getD p []) (i0 + (m.m_Links.getD p []).length / 2 + 1)
        ((m.m_Links.getD p []).length - 1 - (m.m_Links.getD p []).length / 2) := by
    intro hc
    exact (interior_ne_boundary hnd h2 i0 hc).1 rfl
  simp only [Model.Split]
  rw [changeLinkAll_getD_not_mem _ _ _ hintb0]
  rw [InsertLinkBefore_getD_ne _ _ _ hb1b0]
  rw [InsertLinkAfter_getD_self]
  · rw [getD_set_ne _ _ _ (Ne.symm hb0c)]
    rw [getD_set_ne _ _ _ (Ne.symm hb0p)]
    rw [getD_append_left _ _ _ (hbd _ hb0mem)]
  · simp only [Model.m_Links, List.length_set, List.length_append, List.length_cons,
      List.length_nil]
    exact Nat.lt_succ_of_lt (hbd _ hb0mem)

lemma split_links_getD_b1 (m : Model) (p i0 : ℕ)
    (hp : p < m.m_Links.length)
    (h2 : 2 ≤ (m.m_Links.getD p []).length)
    (hirr : p ∉ m.m_Links.getD p [])
    (hbd : ∀ x ∈ m.m_Links.getD p [], x < m.m_Links.length)
    (hnd : (m.m_Links.getD p []).Nodup) :
    (m.Split p i0).m_Links.getD ((m.m_Links.getD p []).getD
        ((i0 + (m.m_Links.getD p []).length / 2) % (m.m_Links.getD p []).length) 0) [] =
      insertLinkBefore (m.m_Links.getD ((m.m_Links.getD p []).getD
        ((i0 + (m.m_Links.getD p []).length / 2) % (m.m_Links.getD p []).length) 0) [])
        p m.m_Links.length := by
  have hb1mem : (m.m_Links.getD p []).getD
      ((i0 + (m.m_Links.getD p []).length / 2) % (m.m_Links.getD p []).length) 0
      ∈ m.m_Links.getD p [] := getD_mem (Nat.mod_lt _ (by omega))
  have hb1p : (m.m_Links.getD p []).getD
      ((i0 + (m.m_Links.getD p []).length / 2) % (m.m_Links.getD p []).length) 0 ≠ p := by
    intro hc
    rw [hc] at hb1mem
    exact hirr hb1mem
  have hb1c : (m.m_Links.getD p []).getD
      ((i0 + (m.m_Links.getD p []).length / 2) % (m.m_Links.getD p []).length) 0
      ≠ m.m_Links.length := Nat.ne_of_lt (hbd _ hb1mem)
  have hb0b1 : (m.m_Links.getD p []).getD (i0 % (m.m_Links.getD p []).length) 0
      ≠ (m.m_Links.getD p []).getD
        ((i0 + (m.m_Links.getD p []).length / 2) % (m.m_Links.getD p []).length) 0 :=
    boundary_ne hnd h2 i0
  have hintb1 : (m.m_Links.getD p []).getD
      ((i0 + (m.m_Links.getD p []).length / 2) % (m.m_Links.getD p []).length) 0 ∉
      arcValues (m.m_Links.getD p []) (i0 + (m.m_Links.getD p []).length / 2 + 1)
        ((m.m_Links.getD p []).length - 1 - (m.m_Links.getD p []).length / 2) := by
    intro hc
    exact (interior_ne_boundary hnd h2 i0 hc).2 rfl
  simp only [Model.Split]
  rw [changeLinkAll_getD_not_mem _ _ _ hintb1]
  rw [InsertLinkBefore_getD_self]
  · rw [InsertLinkAfter_getD_ne _ _ _ hb0b1]
    rw [getD_set_ne _ _ _ (Ne.symm hb1c)]
    rw [getD_set_ne _ _ _ (Ne.symm hb1p)]
    rw [getD_append_left _ _ _ (hbd _ hb1mem)]
  · rw [InsertLinkAfter_links_length]
    simp only [Model.m_Links, List.length_set, List.length_append, List.length_cons,
      List.length_nil]
    exact Nat.lt_succ_of_lt (hbd _ hb1mem)

lemma split_links_getD_interior (m : Model) (p i0 : ℕ) {k : ℕ}
    (hp : p < m.m_Links.length)
    (h2 : 2 ≤ (m.m_Links.getD p []).length)
    (hirr : p ∉ m.m_Links.getD p [])
    (hbd : ∀ x ∈ m.m_Links.getD p [], x < m.m_Links.length)
    (hnd : (m.m_Links.getD p []).Nodup)
    (hk : k ∈ arcValues (m.m_Links.getD p []) (i0 + (m.m_Links.getD p []).length / 2 + 1)
      ((m.m_Links.getD p []).length - 1 - (m.m_Links.getD p []).length / 2)) :
    (m.Split p i0).m_Links.getD k [] = changeLink (m.m_Links.getD k []) p m.m_Links.length := by
  have hkL : k ∈ m.m_Links.getD p [] := arcValues_subset (by omega) k hk
  have hkp : k ≠ p := by
    intro hc
    rw [hc] at hkL
    exact hirr hkL
  have hkc : k ≠ m.m_Links.length := Nat.ne_of_lt (hbd _ hkL)
  have hb0k : (m.m_Links.getD p []).getD (i0 % (m.m_Links.getD p []).length) 0 ≠ k :=
    Ne.symm (interior_ne_boundary hnd h2 i0 hk).1
  have hb1k : (m.m_Links.getD p []).getD
      ((i0 + (m.m_Links.getD p []).length / 2) % (m.m_Links.getD p []).length) 0 ≠ k :=
    Ne.symm (interior_ne_boundary hnd h2 i0 hk).2
  have hndint : (arcValues (m.m_Links.getD p []) (i0 + (m.m_Links.getD p []).length / 2 + 1)
      ((m.m_Links.getD p []).length - 1 - (m.m_Links.getD p []).length / 2)).Nodup :=
    nodup_arcValues hnd (by omega)
  simp only [Model.Split]
  rw [changeLinkAll_getD_mem _ _ _ hndint hk]
  rw [InsertLinkBefore_getD_ne _ _ _ hb1k]
  rw [InsertLinkAfter_getD_ne _ _ _ hb0k]
  rw [getD_set_ne _ _ _ (Ne.symm hkc)]
  rw [getD_set_ne _ _ _ (Ne.symm hkp)]
  rw [getD_append_left _ _ _ (hbd _ hkL)]

lemma split_links_getD_other (m : Model) (p i0 : ℕ) {k : ℕ}
    (hn : 1 ≤ (m.m_Links.getD p []).length)
    (hk1 : k ≠ p) (hk2 : k ≠ m.m_Links.length) (hk3 : k ∉ m.m_Links.getD p []) :
    (m.Split p i0).m_Links.getD k [] = m.m_Links.getD k [] := by
  have hb0mem : (m.m_Links.getD p []).getD (i0 % (m.m_Links.getD p []).length) 0
      ∈ m.m_Links.getD p [] := getD_mem (Nat.mod_lt _ (by omega))
  have hb1mem : (m.m_Links.getD p []).getD
      ((i0 + (m.m_Links.getD p []).length / 2) % (m.m_Links.getD p []).length) 0
      ∈ m.m_Links.getD p [] := getD_mem (Nat.mod_lt _ (by omega))
  have hb0k : (m.m_Links.getD p []).getD (i0 % (m.m_Links.getD p []).length) 0 ≠ k := by
    intro hc
    rw [hc] at hb0mem
    exact hk3 hb0mem
  have hb1k : (m.m_Links.getD p []).getD
      ((i0 + (m.m_Links.getD p []).length / 2) % (m.m_Links.getD p []).length) 0 ≠ k := by
    intro hc
    rw [hc] at hb1mem
    exact hk3 hb1mem
  have hintk : k ∉ arcValues (m.m_Links.getD p []) (i0 + (m.m_Links.getD p []).length / 2 + 1)
      ((m.m_Links.getD p []).length - 1 - (m.m_Links.getD p []).length / 2) :=
    fun hc => hk3 (arcValues_subset hn k hc)
  simp only [Model.Split]
  rw [changeLinkAll_getD_not_mem _ _ _ hintk]
  rw [InsertLinkBefore_getD_ne _ _ _ hb1k]
  rw [InsertLinkAfter_getD_ne _ _ _ hb0k]
  rw [getD_set_ne _ _ _ (Ne.symm hk2)]
  rw [getD_set_ne _ _ _ (Ne.symm hk1)]
  by_cases hlt : k < m.m_Links.length
  · exact getD_append_left _ _ _ hlt
  · rw [getD_of_length_le _ (by simp; omega), getD_of_length_le _ (by omega)]

/-! Non-adjacency fields of the state after `Model::Split`. -/

lemma split_m_Food (m : Model) (p i0 : ℕ) :
    (m.Split p i0).m_Food = (m.m_Food ++ [0]).set p 0 := by
  simp only [Model.Split, Model.InsertLinkAfter, Model.InsertLinkBefore]
  rw [(changeLinkAll_fields _ _ _ _).2.2.1]

lemma split_m_SplitThreshold (m : Model) (p i0 : ℕ) :
    (m.Split p i0).m_SplitThreshold = m.m_SplitThreshold := by
  simp only [Model.Split, Model.InsertLinkAfter, Model.InsertLinkBefore]
  rw [(changeLinkAll_fields _ _ _ _).2.2.2]

lemma split_positions_getD_other (m : Model) (p i0 : ℕ) {k : ℕ}
    (hk1 : k ≠ p) (hk2 : k ≠ m.m_Links.length) (hk3 : k < m.m_Positions.length) :
    (m.Split p i0).m_Positions.getD k 0 = m.m_Positions.getD k 0 := by
  simp only [Model.Split, Model.InsertLinkAfter, Model.InsertLinkBefore]
  rw [getD_set_ne _ _ _ (Ne.symm hk2)]
  rw [getD_set_ne _ _ _ (Ne.symm hk1)]
  rw [(changeLinkAll_fields _ _ _ _).1]
  exact getD_append_left _ _ _ hk3

lemma split_normals_getD_other (m : Model) (p i0 : ℕ) {k : ℕ}
    (hk1 : k ≠ p) (hk2 : k ≠ m.m_Links.length) (hk3 : k < m.m_Normals.length) :
    (m.Split p i0).m_Normals.getD k 0 = m.m_Normals.getD k 0 := by
  simp only [Model.Split, Model.InsertLinkAfter, Model.InsertLinkBefore]
  rw [getD_set_ne _ _ _ (Ne.symm hk2)]
  rw [getD_set_ne _ _ _ (Ne.symm hk1)]
  rw [(changeLinkAll_fields _ _ _ _).2.1]
  exact getD_append_left _ _ _ hk3

lemma split_food_getD_other (m : Model) (p i0 : ℕ) {k : ℕ}
    (hk1 : k ≠ p) (hk3 : k < m.m_Food.length) :
    (m.Split p i0).m_Food.getD k 0 = m.m_Food.getD k 0 := by
  rw [split_m_Food]
  rw [getD_set_ne _ _ _ (Ne.symm hk1)]
  exact getD_append_left _ _ _ hk3

/-- Refactored frame lemma: a cell index not named by any rewiring step of
`Model::Split` keeps its adjacency list. -/
lemma split_links_getD_untouched (m : Model) (p i0 : ℕ) {k : ℕ}
    (hk1 : k ≠ p) (hk2 : k ≠ m.m_Links.length)
    (hb0k : (m.m_Links.getD p []).getD (i0 % (m.m_Links.getD p []).length) 0 ≠ k)
    (hb1k : (m.m_Links.getD p []).getD
      ((i0 + (m.m_Links.getD p []).length / 2) % (m.m_Links.getD p []).length) 0 ≠ k)
    (hintk : k ∉ arcValues (m.m_Links.getD p []) (i0 + (m.m_Links.getD p []).length / 2 + 1)
      ((m.m_Links.getD p []).length - 1 - (m.m_Links.getD p []).length / 2)) :
    (m.Split p i0).m_Links.getD k [] = m.m_Links.getD k [] := by
  simp only [Model.Split]
  rw [changeLinkAll_getD_not_mem _ _ _ hintk]
  rw [InsertLinkBefore_getD_ne _ _ _ hb1k]
  rw [InsertLinkAfter_getD_ne _ _ _ hb0k]
  rw [getD_set_ne _ _ _ (Ne.symm hk2)]
  rw [getD_set_ne _ _ _ (Ne.symm hk1)]
  by_cases hlt : k < m.m_Links.length
  · exact getD_append_left _ _ _ hlt
  · rw [getD_of_length_le _ (by simp; omega), getD_of_length_le _ (by omega)]

/-- The kept arc and the reassigned interior arc together cover the ring. -/
lemma ring_cover {L : List ℕ} (hn : 1 ≤ L.length) (i0 : ℕ) {x : ℕ} :
    x ∈ L ↔ (x ∈ arcValues L i0 (L.length / 2 + 1) ∨
      x ∈ arcValues L (i0 + L.length / 2 + 1) (L.length - 1 - L.length / 2)) := by
  rw [← mem_arcValues_full (s := i0) hn]
  have hsum : L.length = (L.length / 2 + 1) + (L.length - 1 - L.length / 2) := by omega
  constructor
  · intro hx
    rw [hsum, arcValues_append] at hx
    rcases List.mem_append.mp hx with h' | h'
    · exact Or.inl h'
    · right
      have : i0 + (L.length / 2 + 1) = i0 + L.length / 2 + 1 := by omega
      rw [← this]
      exact h'
  · intro hx
    rw [hsum, arcValues_append]
    rcases hx with h' | h'
    · exact List.mem_append.mpr (Or.inl h')
    · refine List.mem_append.mpr (Or.inr ?_)
      have : i0 + (L.length / 2 + 1) = i0 + L.length / 2 + 1 := by omega
      rw [this]
      exact h'

/-- Members of the child's arc: the far boundary, the interior, the near
boundary. -/
lemma mem_childArc {L : List ℕ} (hn : 1 ≤ L.length) (i0 : ℕ) {x : ℕ} :
    x ∈ arcValues L (i0 + L.length / 2) (L.length - L.length / 2 + 1) ↔
      (x = L.getD ((i0 + L.length / 2) % L.length) 0 ∨
       x ∈ arcValues L (i0 + L.length / 2 + 1) (L.length - 1 - L.length / 2) ∨
       x = L.getD (i0 % L.length) 0) := by
  have hsum : L.length - L.length / 2 + 1 = 1 + ((L.length - 1 - L.length / 2) + 1) := by omega
  rw [hsum, arcValues_append, arcValues_append, arcValues_one, arcValues_one]
  have hlast : (i0 + L.length / 2 + 1 + (L.length - 1 - L.length / 2)) % L.length
      = i0 % L.length := by
    have : i0 + L.length / 2 + 1 + (L.length - 1 - L.length / 2) = i0 + L.length := by omega
    rw [this, Nat.add_mod_right]
  rw [hlast]
  simp only [List.mem_append, List.mem_singleton]

/-- The near boundary belongs to the kept arc. -/
lemma b0_mem_kept {L : List ℕ} (i0 : ℕ) :
    L.getD (i0 % L.length) 0 ∈ arcValues L i0 (L.length / 2 + 1) :=
  mem_arcValues.mpr ⟨0, by omega, by rw [Nat.add_zero]⟩

/-- The far boundary belongs to the kept arc. -/
lemma b1_mem_kept {L : List ℕ} (i0 : ℕ) :
    L.getD ((i0 + L.length / 2) % L.length) 0 ∈ arcValues L i0 (L.length / 2 + 1) :=
  mem_arcValues.mpr ⟨L.length / 2, by omega, rfl⟩

/-- Symmetry in the convenient unbounded form. -/
lemma links_mem_symm {ls : List (List ℕ)} (hsym : LinkSymmetric ls) (hbd : LinkBounded ls)
    {u x : ℕ} (hx : x ∈ ls.getD u []) : u ∈ ls.getD x [] := by
  by_cases hu : u < ls.length
  · have hxl : x < ls.length := hbd _ (getD_mem hu) x hx
    exact (hsym u hu x hxl).mp hx
  · rw [getD_of_length_le _ (Nat.le_of_not_lt hu)] at hx
    cases hx

/-! Characterisation lemmas for `Model::Split`, restated in terms of the
ring quantities `ringOf`, `bnd0`, `bnd1`, `keptArc`, `interiorArc`, `childArcOf`. -/


lemma splitP (m : Model) (p i0 : ℕ) (hp : p < m.m_Links.length)
    (hn : 1 ≤ (ringOf m p).length) (hirr : p ∉ ringOf m p) :
    (m.Split p i0).m_Links.getD p [] = keptArc m p i0 ++ [m.m_Links.length] :=
  split_links_getD_parent m p i0 hp hn hirr

lemma splitC (m : Model) (p i0 : ℕ) (hp : p < m.m_Links.length)
    (hn : 1 ≤ (ringOf m p).length) (hbd : ∀ x ∈ ringOf m p, x < m.m_Links.length) :
    (m.Split p i0).m_Links.getD m.m_Links.length [] = childArcOf m p i0 ++ [p] :=
  split_links_getD_child m p i0 hp hn hbd

lemma splitB0 (m : Model) (p i0 : ℕ) (hp : p < m.m_Links.length)
    (h2 : 2 ≤ (ringOf m p).length) (hirr : p ∉ ringOf m p)
    (hbd : ∀ x ∈ ringOf m p, x < m.m_Links.length) (hnd : (ringOf m p).Nodup) :
    (m.Split p i0).m_Links.getD (bnd0 m p i0) [] =
      insertLinkAfter (m.m_Links.getD (bnd0 m p i0) []) p m.m_Links.length :=
  split_links_getD_b0 m p i0 hp h2 hirr hbd hnd

lemma splitB1 (m : Model) (p i0 : ℕ) (hp : p < m.m_Links.length)
    (h2 : 2 ≤ (ringOf m p).length) (hirr : p ∉ ringOf m p)
    (hbd : ∀ x ∈ ringOf m p, x < m.m_Links.length) (hnd : (ringOf m p).Nodup) :
    (m.Split p i0).m_Links.getD (bnd1 m p i0) [] =
      insertLinkBefore (m.m_Links.getD (bnd1 m p i0) []) p m.m_Links.length :=
  split_links_getD_b1 m p i0 hp h2 hirr hbd hnd

lemma splitI (m : Model) (p i0 : ℕ) {k : ℕ} (hp : p < m.m_Links.length)
    (h2 : 2 ≤ (ringOf m p).length) (hirr : p ∉ ringOf m p)
    (hbd : ∀ x ∈ ringOf m p, x < m.m_Links.length) (hnd : (ringOf m p).Nodup)
    (hk : k ∈ interiorArc m p i0) :
    (m.Split p i0).m_Links.getD k [] = changeLink (m.m_Links.getD k []) p m.m_Links.length :=
  split_links_getD_interior m p i0 hp h2 hirr hbd hnd hk

lemma splitU (m : Model) (p i0 : ℕ) {k : ℕ}
    (hk1 : k ≠ p) (hk2 : k ≠ m.m_Links.length)
    (hb0k : bnd0 m p i0 ≠ k) (hb1k : bnd1 m p i0 ≠ k) (hintk : k ∉ interiorArc m p i0) :
    (m.Split p i0).m_Links.getD k [] = m.m_Links.getD k [] :=
  split_links_getD_untouched m p i0 hk1 hk2 hb0k hb1k hintk

lemma ring_coverA {m : Model} {p : ℕ} (i0 : ℕ) (hn : 1 ≤ (ringOf m p).length) {x : ℕ} :
    x ∈ ringOf m p ↔ (x ∈ keptArc m p i0 ∨ x ∈ interiorArc m p i0) :=
  ring_cover hn i0

lemma mem_childArcA {m : Model} {p : ℕ} (i0 : ℕ) (hn : 1 ≤ (ringOf m p).length) {x : ℕ} :
    x ∈ childArcOf m p i0 ↔ (x = bnd1 m p i0 ∨ x ∈ interiorArc m p i0 ∨ x = bnd0 m p i0) :=
  mem_childArc hn i0

lemma bnd0_mem_ring {m : Model} {p : ℕ} (i0 : ℕ) (hn : 1 ≤ (ringOf m p).length) :
    bnd0 m p i0 ∈ ringOf m p := getD_mem (Nat.mod_lt _ (by omega))

lemma bnd1_mem_ring {m : Model} {p : ℕ} (i0 : ℕ) (hn : 1 ≤ (ringOf m p).length) :
    bnd1 m p i0 ∈ ringOf m p := getD_mem (Nat.mod_lt _ (by omega))

lemma bnd0_mem_kept {m : Model} {p : ℕ} (i0 : ℕ) :
    bnd0 m p i0 ∈ keptArc m p i0 := b0_mem_kept i0

lemma bnd1_mem_kept {m : Model} {p : ℕ} (i0 : ℕ) :
    bnd1 m p i0 ∈ keptArc m p i0 := b1_mem_kept i0

lemma bnd_ne {m : Model} {p : ℕ} (i0 : ℕ) (hnd : (ringOf m p).Nodup)
    (h2 : 2 ≤ (ringOf m p).length) : bnd0 m p i0 ≠ bnd1 m p i0 :=
  boundary_ne hnd h2 i0

lemma interior_ne_bnd {m : Model} {p : ℕ} (i0 : ℕ) (hnd : (ringOf m p).Nodup)
    (h2 : 2 ≤ (ringOf m p).length) {k : ℕ} (hk : k ∈ interiorArc m p i0) :
    k ≠ bnd0 m p i0 ∧ k ≠ bnd1 m p i0 :=
  interior_ne_boundary hnd h2 i0 hk

lemma kept_interior_disjointA {m : Model} {p : ℕ} (i0 : ℕ) (hnd : (ringOf m p).Nodup)
    (hn : 1 ≤ (ringOf m p).length) {x : ℕ}
    (hx1 : x ∈ keptArc m p i0) (hx2 : x ∈ interiorArc m p i0) : False :=
  kept_interior_disjoint hnd hn i0 hx1 hx2

lemma interior_subset_ring {m : Model} {p : ℕ} (i0 : ℕ) (hn : 1 ≤ (ringOf m p).length)
    {x : ℕ} (hx : x ∈ interiorArc m p i0) : x ∈ ringOf m p :=
  arcValues_subset hn x hx

lemma kept_subset_ring {m : Model} {p : ℕ} (i0 : ℕ) (hn : 1 ≤ (ringOf m p).length)
    {x : ℕ} (hx : x ∈ keptArc m p i0) : x ∈ ringOf m p :=
  arcValues_subset hn x hx

lemma split_aux_mem (m : Model) (p i0 : ℕ)
    (hp : p < m.m_Links.length)
    (h2 : 2 ≤ (ringOf m p).length)
    (hsym : LinkSymmetric m.m_Links) (hslf : SelfLoopFree m.m_Links)
    (hndA : LinkNodup m.m_Links) (hbdA : LinkBounded m.m_Links) :
    ∀ u x, x ∈ (m.Split p i0).m_Links.getD u [] → u ∈ (m.Split p i0).m_Links.getD x [] := by
  have hn1 : 1 ≤ (ringOf m p).length := by omega
  have hirr : p ∉ ringOf m p := hslf p hp
  have hnd : (ringOf m p).Nodup := hndA _ (getD_mem hp)
  have hbd : ∀ y ∈ ringOf m p, y < m.m_Links.length := fun y hy => hbdA _ (getD_mem hp) y hy
  have hb0R : bnd0 m p i0 ∈ ringOf m p := bnd0_mem_ring i0 hn1
  have hb1R : bnd1 m p i0 ∈ ringOf m p := bnd1_mem_ring i0 hn1
  have hb0p : bnd0 m p i0 ≠ p := by
    intro hc; rw [hc] at hb0R; exact hirr hb0R
  have hb1p : bnd1 m p i0 ≠ p := by
    intro hc; rw [hc] at hb1R; exact hirr hb1R
  have hpc : p ≠ m.m_Links.length := Nat.ne_of_lt hp
  have hpIn : ∀ y ∈ ringOf m p, p ∈ m.m_Links.getD y [] := fun y hy =>
    links_mem_symm hsym hbdA hy
  have hcNot : ∀ k, m.m_Links.length ∉ m.m_Links.getD k [] := by
    intro k hk
    by_cases hkl : k < m.m_Links.length
    · exact absurd (hbdA _ (getD_mem hkl) _ hk) (lt_irrefl _)
    · rw [getD_of_length_le _ (Nat.le_of_not_lt hkl)] at hk
      cases hk
  -- generic continuation: if u was already linked to a non-parent,
  -- non-child cell x, it still is afterwards
  have step : ∀ x, x ≠ p → x ≠ m.m_Links.length → ∀ {u : ℕ}, u ∈ m.m_Links.getD x [] →
      (u ≠ p ∨ x ∉ interiorArc m p i0) → u ∈ (m.Split p i0).m_Links.getD x [] := by
    intro x hxp hxc u hu hsafe
    by_cases hxb0 : x = bnd0 m p i0
    · subst hxb0
      rw [splitB0 m p i0 hp h2 hirr hbd hnd]
      exact mem_insertLinkAfter_of_mem _ _ hu
    by_cases hxb1 : x = bnd1 m p i0
    · subst hxb1
      rw [splitB1 m p i0 hp h2 hirr hbd hnd]
      exact mem_insertLinkBefore_of_mem _ _ hu
    by_cases hxint : x ∈ interiorArc m p i0
    · rcases hsafe with hup | hxint'
      · rw [splitI m p i0 hp h2 hirr hbd hnd hxint]
        exact mem_changeLink_of_mem hu hup
      · exact absurd hxint hxint'
    · rw [splitU m p i0 hxp hxc (fun hc => hxb0 hc.symm) (fun hc => hxb1 hc.symm) hxint]
      exact hu
  intro u x hx
  by_cases hup : u = p
  · rw [hup] at hx ⊢
    rw [splitP m p i0 hp hn1 hirr] at hx
    rcases List.mem_append.mp hx with hxk | hxc'
    · have hxR : x ∈ ringOf m p := kept_subset_ring i0 hn1 hxk
      have hxp : x ≠ p := by
        intro hc; rw [hc] at hxR; exact hirr hxR
      exact step x hxp (Nat.ne_of_lt (hbd _ hxR)) (hpIn x hxR)
        (Or.inr (fun hc => kept_interior_disjointA i0 hnd hn1 hxk hc))
    · have hxc : x = m.m_Links.length := by simpa using hxc'
      subst hxc
      rw [splitC m p i0 hp hn1 hbd]
      simp
  by_cases huc : u = m.m_Links.length
  · rw [huc] at hx ⊢
    rw [splitC m p i0 hp hn1 hbd] at hx
    rcases List.mem_append.mp hx with hxa | hxp'
    · rcases (mem_childArcA i0 hn1).mp hxa with hxb1 | hxint | hxb0
      · subst hxb1
        rw [splitB1 m p i0 hp h2 hirr hbd hnd]
        exact mem_insertLinkBefore_target _ _ _
      · rw [splitI m p i0 hp h2 hirr hbd hnd hxint]
        exact mem_changeLink_target _ (hpIn x (interior_subset_ring i0 hn1 hxint))
      · subst hxb0
        rw [splitB0 m p i0 hp h2 hirr hbd hnd]
        exact mem_insertLinkAfter_target _ (hpIn _ hb0R)
    · have hxp : x = p := by simpa using hxp'
      rw [hxp, splitP m p i0 hp hn1 hirr]
      simp
  by_cases hub0 : u = bnd0 m p i0
  · rw [hub0] at hx ⊢
    rw [splitB0 m p i0 hp h2 hirr hbd hnd] at hx
    rcases mem_of_mem_insertLinkAfter hx with hxc | hxold
    · subst hxc
      rw [splitC m p i0 hp hn1 hbd]
      exact List.mem_append.mpr (Or.inl ((mem_childArcA i0 hn1).mpr (Or.inr (Or.inr rfl))))
    · have hswap : bnd0 m p i0 ∈ m.m_Links.getD x [] := links_mem_symm hsym hbdA hxold
      by_cases hxp : x = p
      · rw [hxp, splitP m p i0 hp hn1 hirr]
        rw [hxp] at hswap
        exact List.mem_append.mpr (Or.inl (bnd0_mem_kept i0))
      · have hxlt : x < m.m_Links.length := hbdA _ (getD_mem (hbd _ hb0R)) _ hxold
        exact step x hxp (Nat.ne_of_lt hxlt) hswap (Or.inl hb0p)
  by_cases hub1 : u = bnd1 m p i0
  · rw [hub1] at hx ⊢
    rw [splitB1 m p i0 hp h2 hirr hbd hnd] at hx
    rcases mem_of_mem_insertLinkBefore hx with hxc | hxold
    · subst hxc
      rw [splitC m p i0 hp hn1 hbd]
      exact List.mem_append.mpr (Or.inl ((mem_childArcA i0 hn1).mpr (Or.inl rfl)))
    · have hswap : bnd1 m p i0 ∈ m.m_Links.getD x [] := links_mem_symm hsym hbdA hxold
      by_cases hxp : x = p
      · rw [hxp, splitP m p i0 hp hn1 hirr]
        rw [hxp] at hswap
        exact List.mem_append.mpr (Or.inl (bnd1_mem_kept i0))
      · have hxlt : x < m.m_Links.length := hbdA _ (getD_mem (hbd _ hb1R)) _ hxold
        exact step x hxp (Nat.ne_of_lt hxlt) hswap (Or.inl hb1p)
  by_cases huint : u ∈ interiorArc m p i0
  · have huR : u ∈ ringOf m p := interior_subset_ring i0 hn1 huint
    have hupR : u ≠ p := hup
    have hult : u < m.m_Links.length := hbd _ huR
    rw [splitI m p i0 hp h2 hirr hbd hnd huint] at hx
    rcases mem_of_mem_changeLink hx with hxc | hxold
    · subst hxc
      rw [splitC m p i0 hp hn1 hbd]
      exact List.mem_append.mpr (Or.inl ((mem_childArcA i0 hn1).mpr (Or.inr (Or.inl huint))))
    · have hxp : x ≠ p := by
        intro hc
        subst hc
        exact not_mem_changeLink (hndA _ (getD_mem hult)) hpc (hpIn u huR) hx
      have hswap : u ∈ m.m_Links.getD x [] := links_mem_symm hsym hbdA hxold
      have hxlt : x < m.m_Links.length := hbdA _ (getD_mem hult) _ hxold
      exact step x hxp (Nat.ne_of_lt hxlt) hswap (Or.inl hupR)
  · -- u untouched
    rw [splitU m p i0 hup huc (fun hc => hub0 hc.symm) (fun hc => hub1 hc.symm) huint] at hx
    have hult : u < m.m_Links.length := by
      by_contra hnlt
      rw [getD_of_length_le _ (Nat.le_of_not_lt hnlt)] at hx
      cases hx
    have hswap : u ∈ m.m_Links.getD x [] := links_mem_symm hsym hbdA hx
    have hxlt : x < m.m_Links.length := hbdA _ (getD_mem hult) _ hx
    by_cases hxp : x = p
    · rw [hxp] at hswap
      rw [hxp, splitP m p i0 hp hn1 hirr]
      rcases (ring_coverA i0 hn1).mp hswap with hk | hi
      · exact List.mem_append.mpr (Or.inl hk)
      · exact absurd hi huint
    · exact step x hxp (Nat.ne_of_lt hxlt) hswap (Or.inl hup)

lemma split_preserves_wf (m : Model) (p i0 : ℕ)
    (hp : p < m.m_Links.length) (h2 : 2 ≤ (ringOf m p).length)
    (hwf : LinksWF m.m_Links) : LinksWF (m.Split p i0).m_Links := by
  obtain ⟨hsym, hslf, hndA, hbdA⟩ := hwf
  have hn1 : 1 ≤ (ringOf m p).length := by omega
  have hirr : p ∉ ringOf m p := hslf p hp
  have hnd : (ringOf m p).Nodup := hndA _ (getD_mem hp)
  have hbd : ∀ y ∈ ringOf m p, y < m.m_Links.length := fun y hy => hbdA _ (getD_mem hp) y hy
  have hb0R : bnd0 m p i0 ∈ ringOf m p := bnd0_mem_ring i0 hn1
  have hb1R : bnd1 m p i0 ∈ ringOf m p := bnd1_mem_ring i0 hn1
  have hb0p : bnd0 m p i0 ≠ p := by
    intro hc; rw [hc] at hb0R; exact hirr hb0R
  have hb1p : bnd1 m p i0 ≠ p := by
    intro hc; rw [hc] at hb1R; exact hirr hb1R
  have hpc : p ≠ m.m_Links.length := Nat.ne_of_lt hp
  have hcNot : ∀ k, m.m_Links.length ∉ m.m_Links.getD k [] := by
    intro k hk
    by_cases hkl : k < m.m_Links.length
    · exact absurd (hbdA _ (getD_mem hkl) _ hk) (lt_irrefl _)
    · rw [getD_of_length_le _ (Nat.le_of_not_lt hkl)] at hk
      cases hk
  refine ⟨?_, ?_, ?_, ?_⟩
  · intro i _ j _
    exact ⟨fun h => split_aux_mem m p i0 hp h2 hsym hslf hndA hbdA i j h,
           fun h => split_aux_mem m p i0 hp h2 hsym hslf hndA hbdA j i h⟩
  · intro k _
    by_cases hkp : k = p
    · rw [hkp, splitP m p i0 hp hn1 hirr]
      intro hc
      rcases List.mem_append.mp hc with h' | h'
      · exact hirr (kept_subset_ring i0 hn1 h')
      · exact hpc (by simpa using h')
    by_cases hkc : k = m.m_Links.length
    · rw [hkc, splitC m p i0 hp hn1 hbd]
      intro hc
      rcases List.mem_append.mp hc with h' | h'
      · rcases (mem_childArcA i0 hn1).mp h' with h1 | h1 | h1
        · have := hbd _ hb1R; omega
        · have := hbd _ (interior_subset_ring i0 hn1 h1); omega
        · have := hbd _ hb0R; omega
      · exact hpc ((by simpa using h') : m.m_Links.length = p).symm
    by_cases hkb0 : k = bnd0 m p i0
    · rw [hkb0, splitB0 m p i0 hp h2 hirr hbd hnd]
      intro hc
      rcases mem_of_mem_insertLinkAfter hc with h' | h'
      · have := hbd _ hb0R; omega
      · exact hslf _ (hbd _ hb0R) h'
    by_cases hkb1 : k = bnd1 m p i0
    · rw [hkb1, splitB1 m p i0 hp h2 hirr hbd hnd]
      intro hc
      rcases mem_of_mem_insertLinkBefore hc with h' | h'
      · have := hbd _ hb1R; omega
      · exact hslf _ (hbd _ hb1R) h'
    by_cases hkint : k ∈ interiorArc m p i0
    · rw [splitI m p i0 hp h2 hirr hbd hnd hkint]
      intro hc
      rcases mem_of_mem_changeLink hc with h' | h'
      · have := hbd _ (interior_subset_ring i0 hn1 hkint); omega
      · exact hslf k (hbd _ (interior_subset_ring i0 hn1 hkint)) h'
    · rw [splitU m p i0 hkp hkc (fun hc => hkb0 hc.symm) (fun hc => hkb1 hc.symm) hkint]
      by_cases hkl : k < m.m_Links.length
      · exact hslf k hkl
      · rw [getD_of_length_le _ (Nat.le_of_not_lt hkl)]
        simp
  · intro l hl
    rcases List.mem_iff_get.mp hl with ⟨⟨k, hk⟩, rfl⟩
    rw [← getD_eq_get _ [] hk]
    by_cases hkp : k = p
    · rw [hkp, splitP m p i0 hp hn1 hirr]
      refine List.nodup_append.mpr ⟨nodup_arcValues hnd (by omega), List.nodup_singleton _, ?_⟩
      intro y hy1 hy2
      have hylt := hbd _ (kept_subset_ring i0 hn1 hy1)
      have : y = m.m_Links.length := by simpa using hy2
      omega
    by_cases hkc : k = m.m_Links.length
    · rw [hkc, splitC m p i0 hp hn1 hbd]
      refine List.nodup_append.mpr ⟨nodup_arcValues hnd (by omega), List.nodup_singleton _, ?_⟩
      intro y hy1 hy2
      have : y = p := by simpa using hy2
      rcases (mem_childArcA i0 hn1).mp hy1 with h1 | h1 | h1
      · rw [this] at h1
        exact hb1p h1.symm
      · rw [this] at h1
        exact hirr (interior_subset_ring i0 hn1 h1)
      · rw [this] at h1
        exact hb0p h1.symm
    by_cases hkb0 : k = bnd0 m p i0
    · rw [hkb0, splitB0 m p i0 hp h2 hirr hbd hnd]
      exact nodup_insertLinkAfter _ (hndA _ (getD_mem (hbd _ hb0R))) (hcNot _)
    by_cases hkb1 : k = bnd1 m p i0
    · rw [hkb1, splitB1 m p i0 hp h2 hirr hbd hnd]
      exact nodup_insertLinkBefore _ (hndA _ (getD_mem (hbd _ hb1R))) (hcNot _)
    by_cases hkint : k ∈ interiorArc m p i0
    · rw [splitI m p i0 hp h2 hirr hbd hnd hkint]
      exact nodup_changeLink (hndA _ (getD_mem (hbd _ (interior_subset_ring i0 hn1 hkint))))
        (hcNot _)
    · rw [splitU m p i0 hkp hkc (fun hc => hkb0 hc.symm) (fun hc => hkb1 hc.symm) hkint]
      by_cases hkl : k < m.m_Links.length
      · exact hndA _ (getD_mem hkl)
      · rw [getD_of_length_le _ (Nat.le_of_not_lt hkl)]
        exact List.nodup_nil
  · intro l hl y hy
    rw [split_links_length]
    rcases List.mem_iff_get.mp hl with ⟨⟨k, hk⟩, hlk⟩
    rw [← getD_eq_get _ [] hk] at hlk
    subst hlk
    by_cases hkp : k = p
    · rw [hkp, splitP m p i0 hp hn1 hirr] at hy
      rcases List.mem_append.mp hy with h' | h'
      · have := hbd _ (kept_subset_ring i0 hn1 h')
        omega
      · have : y = m.m_Links.length := by simpa using h'
        omega
    by_cases hkc : k = m.m_Links.length
    · rw [hkc, splitC m p i0 hp hn1 hbd] at hy
      rcases List.mem_append.mp hy with h' | h'
      · rcases (mem_childArcA i0 hn1).mp h' with h1 | h1 | h1
        · have := hbd _ hb1R; omega
        · have := hbd _ (interior_subset_ring i0 hn1 h1); omega
        · have := hbd _ hb0R; omega
      · have : y = p := by simpa using h'
        omega
    by_cases hkb0 : k = bnd0 m p i0
    · rw [hkb0, splitB0 m p i0 hp h2 hirr hbd hnd] at hy
      rcases mem_of_mem_insertLinkAfter hy with h' | h'
      · omega
      · have := hbdA _ (getD_mem (hbd _ hb0R)) _ h'
        omega
    by_cases hkb1 : k = bnd1 m p i0
    · rw [hkb1, splitB1 m p i0 hp h2 hirr hbd hnd] at hy
      rcases mem_of_mem_insertLinkBefore hy with h' | h'
      · omega
      · have := hbdA _ (getD_mem (hbd _ hb1R)) _ h'
        omega
    by_cases hkint : k ∈ interiorArc m p i0
    · rw [splitI m p i0 hp h2 hirr hbd hnd hkint] at hy
      rcases mem_of_mem_changeLink hy with h' | h'
      · omega
      · have := hbdA _ (getD_mem (hbd _ (interior_subset_ring i0 hn1 hkint))) _ h'
        omega
    · rw [splitU m p i0 hkp hkc (fun hc => hkb0 hc.symm) (fun hc => hkb1 hc.symm) hkint] at hy
      by_cases hkl : k < m.m_Links.length
      · have := hbdA _ (getD_mem hkl) _ hy
        omega
      · rw [getD_of_length_le _ (Nat.le_of_not_lt hkl)] at hy
        cases hy

/-- The arc walk of `Model::Split` is a rotation-then-prefix of the ring:
`arcValues L s c = (L.rotate s).take c` for `c ≤ |L|`. -/
lemma arcValues_eq_rotate_take {L : List ℕ} {s c : ℕ} (hc : c ≤ L.length) :
    arcValues L s c = (L.rotate s).take c := by
  apply List.ext_getElem?
  intro t
  by_cases ht : t < c
  · have hn : 0 < L.length := by omega
    have hlhs : (arcValues L s c)[t]? = some (L.getD ((s + t) % L.length) 0) := by
      simp [arcValues, List.getElem?_map, List.getElem?_range ht]
    have hmem : t < (L.rotate s).length := by
      rw [List.length_rotate]; omega
    have hrhs : ((L.rotate s).take c)[t]? = some ((L.rotate s)[t]) := by
      rw [List.getElem?_take_of_lt ht, List.getElem?_eq_getElem hmem]
    rw [hlhs, hrhs]
    congr 1
    rw [List.getElem_rotate, Nat.add_comm t s]
    rw [getD_eq_get _ _ (Nat.mod_lt _ hn), List.get_eq_getElem]
  · have h1 : (arcValues L s c)[t]? = none := by
      refine List.getElem?_eq_none ?_
      rw [length_arcValues]; omega
    have h2 : ((L.rotate s).take c)[t]? = none := by
      refine List.getElem?_eq_none ?_
      have := List.length_take c (L.rotate s)
      omega
    rw [h1, h2]

/-! Degree-sum accounting for the "adds exactly three links" statement. -/

lemma sum_map_length_set (ls : List (List ℕ)) (k : ℕ) (v : List ℕ) (h : k < ls.length) :
    ((ls.set k v).map List.length).sum + (ls.getD k []).length
      = (ls.map List.length).sum + v.length := by
  induction ls generalizing k with
  | nil => cases h
  | cons hd tl ih =>
    cases k with
    | zero => simp [List.set]; omega
    | succ k' =>
      have hk' : k' < tl.length := by simpa using h
      have := ih k' hk'
      simp only [List.set, List.map_cons, List.sum_cons]
      have hD : ((hd :: tl).getD (k' + 1) []).length = (tl.getD k' []).length := by
        simp [List.getD_eq_getElem?_getD]
      rw [hD]
      omega

lemma ChangeLink_sum (m : Model) (j a b : ℕ) :
    (((m.ChangeLink j a b).m_Links.map List.length).sum)
      = ((m.m_Links.map List.length).sum) := by
  by_cases hj : j < m.m_Links.length
  · have h := sum_map_length_set m.m_Links j (changeLink (m.m_Links.getD j []) a b) hj
    rw [length_changeLink] at h
    show ((m.m_Links.set j (changeLink (m.m_Links.getD j []) a b)).map List.length).sum
        = (m.m_Links.map List.length).sum
    omega
  · simp [Model.ChangeLink, List.set_eq_of_length_le (Nat.le_of_not_lt hj)]

lemma changeLinkAll_sum (m : Model) (idxs : List ℕ) (a b : ℕ) :
    (((m.changeLinkAll idxs a b).m_Links.map List.length).sum)
      = ((m.m_Links.map List.length).sum) := by
  induction idxs generalizing m with
  | nil => rfl
  | cons j rest ih =>
    calc ((m.changeLinkAll (j :: rest) a b).m_Links.map List.length).sum
        = (((m.ChangeLink j a b).changeLinkAll rest a b).m_Links.map List.length).sum := rfl
      _ = (((m.ChangeLink j a b)).m_Links.map List.length).sum := ih _
      _ = ((m.m_Links.map List.length).sum) := ChangeLink_sum m j a b

lemma InsertLinkAfter_sum (m : Model) (j a b : ℕ) (hj : j < m.m_Links.length)
    (ha : a ∈ m.m_Links.getD j []) :
    ((m.InsertLinkAfter j a b).m_Links.map List.length).sum
      = (m.m_Links.map List.length).sum + 1 := by
  have h := sum_map_length_set m.m_Links j (insertLinkAfter (m.m_Links.getD j []) a b) hj
  rw [length_insertLinkAfter b ha] at h
  show ((m.m_Links.set j (insertLinkAfter (m.m_Links.getD j []) a b)).map List.length).sum = _
  omega

lemma InsertLinkBefore_sum (m : Model) (j a b : ℕ) (hj : j < m.m_Links.length) :
    ((m.InsertLinkBefore j a b).m_Links.map List.length).sum
      = (m.m_Links.map List.length).sum + 1 := by
  have h := sum_map_length_set m.m_Links j (insertLinkBefore (m.m_Links.getD j []) a b) hj
  rw [length_insertLinkBefore] at h
  show ((m.m_Links.set j (insertLinkBefore (m.m_Links.getD j []) a b)).map List.length).sum = _
  omega

/-- Total degree accounting for one split: the sum of all adjacency-list
lengths grows by `|parentLinks| + |childLinks| + 2 - n`
(which is `6` — three undirected links — whenever `n` is even). -/
lemma split_sum_map_length (m : Model) (p i0 : ℕ)
    (hp : p < m.m_Links.length)
    (h2 : 2 ≤ (ringOf m p).length)
    (hirr : p ∉ ringOf m p)
    (hbd : ∀ x ∈ ringOf m p, x < m.m_Links.length)
    (hnd : (ringOf m p).Nodup)
    (hpb0 : p ∈ m.m_Links.getD (bnd0 m p i0) [])
    (hpb1 : p ∈ m.m_Links.getD (bnd1 m p i0) []) :
    ((m.Split p i0).m_Links.map List.length).sum + (ringOf m p).length
      = (m.m_Links.map List.length).sum
        + ((ringOf m p).length / 2 + 2) + ((ringOf m p).length - (ringOf m p).length / 2 + 2)
        + 2 := by
  have hn1 : 1 ≤ (ringOf m p).length := by omega
  have hb0R : bnd0 m p i0 ∈ ringOf m p := bnd0_mem_ring i0 hn1
  have hb1R : bnd1 m p i0 ∈ ringOf m p := bnd1_mem_ring i0 hn1
  have hb0p : bnd0 m p i0 ≠ p := by
    intro hc; rw [hc] at hb0R; exact hirr hb0R
  have hb1p : bnd1 m p i0 ≠ p := by
    intro hc; rw [hc] at hb1R; exact hirr hb1R
  have hb0c : bnd0 m p i0 ≠ m.m_Links.length := Nat.ne_of_lt (hbd _ hb0R)
  have hb1c : bnd1 m p i0 ≠ m.m_Links.length := Nat.ne_of_lt (hbd _ hb1R)
  -- sums through the two `set` steps building parent and child lists
  have hA : ((m.m_Links ++ [[]]).map List.length).sum = (m.m_Links.map List.length).sum := by
    simp
  have hpA : p < (m.m_Links ++ [[]]).length := by simp; omega
  have hB := sum_map_length_set (m.m_Links ++ [[]]) p
    (arcValues (ringOf m p) i0 ((ringOf m p).length / 2 + 1) ++ [m.m_Links.length]) hpA
  rw [getD_append_left _ _ _ hp] at hB
  have hcB : m.m_Links.length < ((m.m_Links ++ [[]]).set p
      (arcValues (ringOf m p) i0 ((ringOf m p).length / 2 + 1) ++ [m.m_Links.length])).length := by
    simp
  have hC := sum_map_length_set _ m.m_Links.length
    (arcValues (ringOf m p) (i0 + (ringOf m p).length / 2)
      ((ringOf m p).length - (ringOf m p).length / 2 + 1) ++ [p]) hcB
  rw [getD_set_ne _ _ _ (Nat.ne_of_lt hp)] at hC
  rw [getD_append_length] at hC
  have hring : m.m_Links.getD p [] = ringOf m p := rfl
  rw [hring] at hB
  simp only [List.length_append, length_arcValues, List.length_cons, List.length_nil] at hB hC
  simp only [List.length_append, List.length_cons, List.length_nil] at hpA hcB
  simp only [Model.Split]
  simp only [hring]
  rw [changeLinkAll_sum]
  rw [InsertLinkBefore_sum]
  · rw [InsertLinkAfter_sum]
    · simp only [Model.m_Links] at hB hC ⊢
      omega
    · simp only [Model.m_Links, List.length_set, List.length_append, List.length_cons,
        List.length_nil]
      exact Nat.lt_succ_of_lt (hbd _ hb0R)
    · simp only [Model.m_Links]
      have hfold0 : (ringOf m p).getD (i0 % (ringOf m p).length) 0 = bnd0 m p i0 := rfl
      rw [hfold0]
      rw [getD_set_ne _ _ _ (Ne.symm hb0c), getD_set_ne _ _ _ (Ne.symm hb0p),
        getD_append_left _ _ _ (hbd _ hb0R)]
      exact hpb0
  · rw [InsertLinkAfter_links_length]
    simp only [Model.m_Links, List.length_set, List.length_append, List.length_cons,
      List.length_nil]
    exact Nat.lt_succ_of_lt (hbd _ hb1R)

/-! Characterisation of the strided parallel phase. -/

/-- A fold of conditional slot-writes splits componentwise over the three
buffers. -/
lemma foldl_triple_split (f g : ℕ → Vec3) (Q : ℕ → Prop) [DecidablePred Q] :
    ∀ (l : List ℕ) (bufs : Buffers),
      l.foldl (fun b i => if Q i then (b.1.set i (f i), b.2.1.set i (g i), b.2.2) else b) bufs
        = (l.foldl (fun b i => if Q i then b.set i (f i) else b) bufs.1,
           l.foldl (fun b i => if Q i then b.set i (g i) else b) bufs.2.1,
           bufs.2.2) := by
  intro l
  induction l with
  | nil => intro bufs; rfl
  | cons x xs ih =>
    intro bufs
    rw [List.foldl_cons, List.foldl_cons, List.foldl_cons, ih]
    by_cases h : Q x <;> simp [h]

/-- Slot-level description of a fold of conditional writes whose written
value depends only on the slot index. -/
lemma foldl_cond_set_getD (v : ℕ → Vec3) (Q : ℕ → Prop) [DecidablePred Q] :
    ∀ (l : List ℕ) (buf : List Vec3) (k : ℕ),
      (l.foldl (fun b i => if Q i then b.set i (v i) else b) buf).getD k 0
        = if k ∈ l ∧ Q k ∧ k < buf.length then v k else buf.getD k 0 := by
  intro l
  induction l with
  | nil => intro buf k; simp
  | cons x xs ih =>
    intro buf k
    rw [List.foldl_cons, ih]
    by_cases hQx : Q x
    · rw [if_pos hQx]
      by_cases hkx : k = x
      · subst hkx
        by_cases hklen : k < buf.length
        · by_cases hkxs : k ∈ xs
          · simp [hkxs, hQx, hklen, getD_set_self _ _ _ _ hklen]
          · simp [hkxs, hQx, hklen, getD_set_self _ _ _ _ hklen]
        · have hlen2 : ¬ k < (buf.set k (v k)).length := by
            rw [List.length_set]; exact hklen
          simp [hklen, hlen2, List.set_eq_of_length_le (Nat.le_of_not_lt hklen)]
      · rw [getD_set_ne _ _ _ (fun hc => hkx hc.symm)]
        rw [List.length_set]
        by_cases hkxs : k ∈ xs
        · simp [hkxs, List.mem_cons, hkx]
        · simp [hkxs, List.mem_cons, hkx]
    · rw [if_neg hQx]
      by_cases hkx : k = x
      · subst hkx
        simp [hQx]
      · by_cases hkxs : k ∈ xs
        · simp [hkxs, List.mem_cons, hkx]
        · simp [hkxs, List.mem_cons, hkx]

lemma foldl_cond_set_length (v : ℕ → Vec3) (Q : ℕ → Prop) [DecidablePred Q] :
    ∀ (l : List ℕ) (buf : List Vec3),
      (l.foldl (fun b i => if Q i then b.set i (v i) else b) buf).length = buf.length := by
  intro l
  induction l with
  | nil => intro buf; rfl
  | cons x xs ih =>
    intro buf
    rw [List.foldl_cons, ih]
    by_cases h : Q x <;> simp [h]

/-- `Model::UpdateBatch` written componentwise. -/
lemma UpdateBatch_eq (m : Model) (nearby : Vec3 → List ℕ) (wi wn : ℕ) (bufs : Buffers) :
    m.UpdateBatch nearby wi wn bufs
      = ((List.range m.m_Positions.length).foldl
           (fun b i => if i % wn = wi then b.set i (m.cellNewPosition nearby i) else b) bufs.1,
         (List.range m.m_Positions.length).foldl
           (fun b i => if i % wn = wi then b.set i (m.CellNormal i) else b) bufs.2.1,
         bufs.2.2) :=
  foldl_triple_split _ _ _ _ bufs

lemma runBatches_fst_getD (m : Model) (nearby : Vec3 → List ℕ) (wn : ℕ) :
    ∀ (ws : List ℕ) (bufs : Buffers) (k : ℕ),
      ((ws.foldl (fun b wi => m.UpdateBatch nearby wi wn b) bufs).1).getD k 0
        = if k < m.m_Positions.length ∧ k % wn ∈ ws ∧ k < bufs.1.length
          then m.cellNewPosition nearby k else bufs.1.getD k 0 := by
  intro ws
  induction ws with
  | nil => intro bufs k; simp
  | cons w ws ih =>
    intro bufs k
    rw [List.foldl_cons, ih, UpdateBatch_eq]
    rw [show ((List.range m.m_Positions.length).foldl
        (fun b i => if i % wn = w then b.set i (m.cellNewPosition nearby i) else b) bufs.1,
        (List.range m.m_Positions.length).foldl
        (fun b i => if i % wn = w then b.set i (m.CellNormal i) else b) bufs.2.1,
        bufs.2.2).1 = (List.range m.m_Positions.length).foldl
        (fun b i => if i % wn = w then b.set i (m.cellNewPosition nearby i) else b) bufs.1 from rfl]
    rw [foldl_cond_set_length, foldl_cond_set_getD]
    by_cases h1 : k < m.m_Positions.length <;>
      by_cases h2 : k % wn ∈ ws <;>
        by_cases h3 : k % wn = w <;>
          by_cases h4 : k < bufs.1.length <;>
            simp [h1, h2, h3, h4, List.mem_range, List.mem_cons]

lemma runBatches_snd_getD (m : Model) (nearby : Vec3 → List ℕ) (wn : ℕ) :
    ∀ (ws : List ℕ) (bufs : Buffers) (k : ℕ),
      ((ws.foldl (fun b wi => m.UpdateBatch nearby wi wn b) bufs).2.1).getD k 0
        = if k < m.m_Positions.length ∧ k % wn ∈ ws ∧ k < bufs.2.1.length
          then m.CellNormal k else bufs.2.1.getD k 0 := by
  intro ws
  induction ws with
  | nil => intro bufs k; simp
  | cons w ws ih =>
    intro bufs k
    rw [List.foldl_cons, ih, UpdateBatch_eq]
    rw [show ((List.range m.m_Positions.length).foldl
        (fun b i => if i % wn = w then b.set i (m.cellNewPosition nearby i) else b) bufs.1,
        (List.range m.m_Positions.length).foldl
        (fun b i => if i % wn = w then b.set i (m.CellNormal i) else b) bufs.2.1,
        bufs.2.2).2.1 = (List.range m.m_Positions.length).foldl
        (fun b i => if i % wn = w then b.set i (m.CellNormal i) else b) bufs.2.1 from rfl]
    rw [foldl_cond_set_length, foldl_cond_set_getD]
    by_cases h1 : k < m.m_Positions.length <;>
      by_cases h2 : k % wn ∈ ws <;>
        by_cases h3 : k % wn = w <;>
          by_cases h4 : k < bufs.2.1.length <;>
            simp [h1, h2, h3, h4, List.mem_range, List.mem_cons]

lemma runBatches_trd (m : Model) (nearby : Vec3 → List ℕ) (wn : ℕ) :
    ∀ (ws : List ℕ) (bufs : Buffers),
      (ws.foldl (fun b wi => m.UpdateBatch nearby wi wn b) bufs).2.2 = bufs.2.2 := by
  intro ws
  induction ws with
  | nil => intro bufs; rfl
  | cons w ws ih =>
    intro bufs
    rw [List.foldl_cons, ih, UpdateBatch_eq]

lemma runBatches_fst_length (m : Model) (nearby : Vec3 → List ℕ) (wn : ℕ) :
    ∀ (ws : List ℕ) (bufs : Buffers),
      ((ws.foldl (fun b wi => m.UpdateBatch nearby wi wn b) bufs).1).length
        = bufs.1.length := by
  intro ws
  induction ws with
  | nil => intro bufs; rfl
  | cons w ws ih =>
    intro bufs
    rw [List.foldl_cons, ih, UpdateBatch_eq]
    exact foldl_cond_set_length _ _ _ _

lemma runBatches_snd_length (m : Model) (nearby : Vec3 → List ℕ) (wn : ℕ) :
    ∀ (ws : List ℕ) (bufs : Buffers),
      ((ws.foldl (fun b wi => m.UpdateBatch nearby wi wn b) bufs).2.1).length
        = bufs.2.1.length := by
  intro ws
  induction ws with
  | nil => intro bufs; rfl
  | cons w ws ih =>
    intro bufs
    rw [List.foldl_cons, ih, UpdateBatch_eq]
    exact foldl_cond_set_length _ _ _ _

lemma split_m_Food_length (m : Model) (p i0 : ℕ) :
    (m.Split p i0).m_Food.length = m.m_Food.length + 1 := by
  rw [split_m_Food]
  simp

/-- Food bounds maintained by the commit loop: processed cells sit in
`[0, splitThreshold]`, unprocessed cells stay non-negative. -/
lemma splitLoop_food_bounds :
    ∀ (draws : List (ℝ × ℕ)) (m : Model) (i : ℕ) (m' : Model),
      m.splitLoop i draws = some m' →
      0 ≤ m.m_SplitThreshold →
      (∀ d ∈ draws, 0 ≤ d.1) →
      (∀ j, j < i → 0 ≤ m.m_Food.getD j 0 ∧ m.m_Food.getD j 0 ≤ m.m_SplitThreshold) →
      (∀ j, 0 ≤ m.m_Food.getD j 0) →
      ∀ j, j < m'.m_Food.length →
        0 ≤ m'.m_Food.getD j 0 ∧ m'.m_Food.getD j 0 ≤ m'.m_SplitThreshold := by
  intro draws
  induction draws with
  | nil =>
    intro m i m' hrun hT _ hpre _ j hj
    simp only [Model.splitLoop] at hrun
    by_cases hi : i < m.m_Food.length
    · rw [if_pos hi] at hrun
      cases hrun
    · rw [if_neg hi] at hrun
      cases hrun
      exact hpre j (by omega)
  | cons d rest ih =>
    intro m i m' hrun hT hdraws hpre hnn
    simp only [Model.splitLoop] at hrun
    by_cases hi : i < m.m_Food.length
    · rw [if_pos hi] at hrun
      have hd0 : 0 ≤ d.1 := hdraws d (List.mem_cons_self d rest)
      have hdrest : ∀ e ∈ rest, 0 ≤ e.1 := fun e he => hdraws e (List.mem_cons_of_mem d he)
      by_cases hover : ({ m with m_Food := m.m_Food.set i (m.m_Food.getD i 0 + d.1) }
          : Model).m_Food.getD i 0 > m.m_SplitThreshold
      · rw [if_pos hover] at hrun
        refine ih _ (i + 1) m' hrun ?_ hdrest ?_ ?_
        · rw [split_m_SplitThreshold]
          exact hT
        · intro j hj
          rw [split_m_SplitThreshold]
          by_cases hji : j = i
          · subst hji
            rw [split_m_Food]
            have hjlt : j < (({ m with m_Food := m.m_Food.set j (m.m_Food.getD j 0 + d.1) }
                : Model).m_Food ++ [0]).length := by
              simp
              omega
            rw [getD_set_self _ _ _ _ hjlt]
            exact ⟨le_refl 0, hT⟩
          · have hjlt : j < i := by omega
            rw [split_m_Food]
            rw [getD_set_ne _ _ _ (fun hc => hji hc.symm)]
            rw [getD_append_left _ _ _ (by simp; omega)]
            rw [getD_set_ne _ _ _ (by omega : i ≠ j)]
            exact hpre j hjlt
        · intro j
          rw [split_m_Food]
          by_cases hji : j = i
          · subst hji
            have hjlt : j < (({ m with m_Food := m.m_Food.set j (m.m_Food.getD j 0 + d.1) }
                : Model).m_Food ++ [0]).length := by
              simp
              omega
            rw [getD_set_self _ _ _ _ hjlt]
          · rw [getD_set_ne _ _ _ (fun hc => hji hc.symm)]
            by_cases hjf : j < m.m_Food.length
            · rw [getD_append_left _ _ _ (by simp; omega)]
              by_cases hji2 : j = i
              · exact absurd hji2 hji
              · rw [getD_set_ne _ _ _ (fun hc => hji2 hc.symm)]
                exact hnn j
            · by_cases hje : j = m.m_Food.length
              · have : (({ m with m_Food := m.m_Food.set i (m.m_Food.getD i 0 + d.1) }
                    : Model).m_Food).length = m.m_Food.length := by simp
                rw [hje]
                rw [show m.m_Food.length
                    = (({ m with m_Food := m.m_Food.set i (m.m_Food.getD i 0 + d.1) }
                      : Model).m_Food).length from this.symm]
                rw [getD_append_length]
              · rw [getD_of_length_le _ (by simp; omega)]
      · rw [if_neg hover] at hrun
        refine ih _ (i + 1) m' hrun hT hdrest ?_ ?_
        · intro j hj
          by_cases hji : j = i
          · subst hji
            rw [getD_set_self _ _ _ _ hi]
            constructor
            · have := hnn j
              positivity
            · have hle := le_of_not_lt hover
              simpa [List.getElem?_set_self hi] using hle
          · rw [getD_set_ne _ _ _ (fun hc => hji hc.symm)]
            exact hpre j (by omega)
        · intro j
          by_cases hji : j = i
          · subst hji
            rw [getD_set_self _ _ _ _ hi]
            have := hnn j
            positivity
          · rw [getD_set_ne _ _ _ (fun hc => hji hc.symm)]
            exact hnn j
    · rw [if_neg hi] at hrun
      cases hrun
      intro j hj
      exact hpre j (by omega)

/-! Algebra of the per-cell force accumulation. -/

lemma length2_neg (v : Vec3) : glm.length2 (-v) = glm.length2 v := by
  simp only [glm.length2, glm.dot, Prod.fst_neg, Prod.snd_neg]
  ring

lemma normalize_neg (v : Vec3) : glm.normalize (-v) = - glm.normalize v := by
  unfold glm.normalize glm.length
  rw [length2_neg, smul_neg]

lemma sum_map_addf {α : Type} [AddCommMonoid α] (f g : ℕ → α) :
    ∀ (l : List ℕ), (l.map (fun j => f j + g j)).sum = (l.map f).sum + (l.map g).sum := by
  intro l
  induction l with
  | nil => simp
  | cons x t ih =>
    simp only [List.map_cons, List.sum_cons, ih]
    abel

/-- The link-iteration fold written as componentwise sums. -/
lemma accum_fold_eq (m : Model) (roi2 link2 : ℝ) (P N : Vec3) :
    ∀ (l : List ℕ) (a : Accum),
      l.foldl (fun acc j =>
        let L := m.m_Positions.getD j 0
        let D := L - P
        let Dn := glm.normalize D
        ({ repulsionVector :=
             if glm.length2 D < roi2 then
               acc.repulsionVector + ((roi2 - glm.length2 D) / roi2) • Dn
             else acc.repulsionVector,
           springTarget := acc.springTarget + (L - m.m_LinkRestLength • Dn),
           planarTarget := acc.planarTarget + L,
           bulgeDistance := acc.bulgeDistance +
             (if glm.length2 D < link2 then
               Real.sqrt (link2 - glm.dot D D + glm.dot D N * glm.dot D N) + glm.dot D N
             else 0),
           food := acc.food + m.m_Food.getD j 0 } : Accum)) a
      = { repulsionVector := a.repulsionVector + (l.map (fun j =>
            if glm.length2 (m.m_Positions.getD j 0 - P) < roi2 then
              ((roi2 - glm.length2 (m.m_Positions.getD j 0 - P)) / roi2) •
                glm.normalize (m.m_Positions.getD j 0 - P)
            else 0)).sum,
          springTarget := a.springTarget + (l.map (fun j =>
            m.m_Positions.getD j 0 - m.m_LinkRestLength •
              glm.normalize (m.m_Positions.getD j 0 - P))).sum,
          planarTarget := a.planarTarget + (l.map (fun j => m.m_Positions.getD j 0)).sum,
          bulgeDistance := a.bulgeDistance + (l.map (fun j =>
            if glm.length2 (m.m_Positions.getD j 0 - P) < link2 then
              Real.sqrt (link2
                  - glm.dot (m.m_Positions.getD j 0 - P) (m.m_Positions.getD j 0 - P)
                  + glm.dot (m.m_Positions.getD j 0 - P) N
                    * glm.dot (m.m_Positions.getD j 0 - P) N)
                + glm.dot (m.m_Positions.getD j 0 - P) N
            else 0)).sum,
          food := a.food + (l.map (fun j => m.m_Food.getD j 0)).sum } := by
  intro l
  induction l with
  | nil => intro a; simp
  | cons j t ih =>
    intro a
    rw [List.foldl_cons, ih]
    simp only [List.map_cons, List.sum_cons]
    congr 1
    · split_ifs with h
      · rw [add_assoc]
      · rw [zero_add]
    · rw [add_assoc]
    · rw [add_assoc]
    · rw [add_assoc]
    · rw [add_assoc]

/-- `Model::UpdateBatch`'s link-pass accumulator, componentwise. -/
lemma accumulate_eq (m : Model) (i : ℕ) :
    m.accumulate i
      = { repulsionVector := ((m.m_Links.getD i []).map (fun j =>
            if glm.length2 (m.m_Positions.getD j 0 - m.m_Positions.getD i 0)
                < m.m_RadiusOfInfluence * m.m_RadiusOfInfluence then
              ((m.m_RadiusOfInfluence * m.m_RadiusOfInfluence
                  - glm.length2 (m.m_Positions.getD j 0 - m.m_Positions.getD i 0))
                / (m.m_RadiusOfInfluence * m.m_RadiusOfInfluence)) •
                glm.normalize (m.m_Positions.getD j 0 - m.m_Positions.getD i 0)
            else 0)).sum,
          springTarget := ((m.m_Links.getD i []).map (fun j =>
            m.m_Positions.getD j 0 - m.m_LinkRestLength •
              glm.normalize (m.m_Positions.getD j 0 - m.m_Positions.getD i 0))).sum,
          planarTarget := ((m.m_Links.getD i []).map (fun j => m.m_Positions.getD j 0)).sum,
          bulgeDistance := ((m.m_Links.getD i []).map (fun j =>
            if glm.length2 (m.m_Positions.getD j 0 - m.m_Positions.getD i 0)
                < m.m_LinkRestLength * m.m_LinkRestLength then
              Real.sqrt (m.m_LinkRestLength * m.m_LinkRestLength
                  - glm.dot (m.m_Positions.getD j 0 - m.m_Positions.getD i 0)
                      (m.m_Positions.getD j 0 - m.m_Positions.getD i 0)
                  + glm.dot (m.m_Positions.getD j 0 - m.m_Positions.getD i 0) (m.CellNormal i)
                    * glm.dot (m.m_Positions.getD j 0 - m.m_Positions.getD i 0) (m.CellNormal i))
                + glm.dot (m.m_Positions.getD j 0 - m.m_Positions.getD i 0) (m.CellNormal i)
            else 0)).sum,
          food := ((m.m_Links.getD i []).map (fun j => m.m_Food.getD j 0)).sum } := by
  simp only [Model.accumulate]
  rw [accum_fold_eq m (m.m_RadiusOfInfluence * m.m_RadiusOfInfluence)
    (m.m_LinkRestLength * m.m_LinkRestLength) (m.m_Positions.getD i 0) (m.CellNormal i)
    (m.m_Links.getD i []) ⟨0, 0, 0, 0, 0⟩]
  simp

lemma averaged_springTarget (m : Model) (i : ℕ) :
    (m.averaged i).springTarget
      = (1 / ((m.m_Links.getD i []).length : ℝ)) • ((m.m_Links.getD i []).map (fun j =>
          m.m_Positions.getD j 0 - m.m_LinkRestLength •
            glm.normalize (m.m_Positions.getD j 0 - m.m_Positions.getD i 0))).sum := by
  simp only [Model.averaged]
  rw [accumulate_eq]

lemma averaged_repulsionVector (m : Model) (i : ℕ) :
    (m.averaged i).repulsionVector = (m.accumulate i).repulsionVector := rfl

/-- The index-query fold of the repulsion pass, as a sum. -/
lemma repulsion_fold_eq (m : Model) (i : ℕ) (roi2 : ℝ) (P : Vec3) :
    ∀ (q : List ℕ) (a : Vec3),
      q.foldl (fun rv j =>
        if j = i then rv
        else
          let L := m.m_Positions.getD j 0
          let D := P - L
          if glm.length2 D < roi2 then rv + ((roi2 - glm.length2 D) / roi2) • glm.normalize D
          else rv) a
      = a + (q.map (fun j =>
          if j ≠ i ∧ glm.length2 (P - m.m_Positions.getD j 0) < roi2 then
            ((roi2 - glm.length2 (P - m.m_Positions.getD j 0)) / roi2) •
              glm.normalize (P - m.m_Positions.getD j 0)
          else 0)).sum := by
  intro q
  induction q with
  | nil => intro a; simp
  | cons j t ih =>
    intro a
    rw [List.foldl_cons, ih]
    simp only [List.map_cons, List.sum_cons]
    by_cases hji : j = i
    · simp [hji]
    · rw [if_neg hji]
      split_ifs with h1 h2 h3
      · rw [add_assoc]
      · exact absurd ⟨hji, h1⟩ h2
      · exact absurd h3.2 h1
      · rw [zero_add]

lemma sum_map_negf (f : ℕ → Vec3) :
    ∀ (l : List ℕ), (l.map (fun j => -(f j))).sum = -((l.map f).sum) := by
  intro l
  induction l with
  | nil => simp
  | cons x t ih =>
    simp only [List.map_cons, List.sum_cons, ih]
    abel

/-- Summing an indicator restricted to a duplicate-free sublist equals the
sum over that sublist, provided the outer duplicate-free list covers it. -/
lemma sum_ite_mem_eq (w : ℕ → Vec3) (cond : ℕ → Prop) [DecidablePred cond]
    {q links : List ℕ} (hqnd : q.Nodup) (hlnd : links.Nodup)
    (hcov : ∀ j ∈ links, cond j → j ∈ q) :
    (q.map (fun j => if j ∈ links ∧ cond j then w j else 0)).sum
      = (links.map (fun j => if cond j then w j else 0)).sum := by
  rw [← List.sum_toFinset _ hqnd, ← List.sum_toFinset _ hlnd]
  rw [← Finset.sum_filter, ← Finset.sum_filter]
  congr 1
  apply Finset.ext
  intro x
  simp only [Finset.mem_filter, List.mem_toFinset]
  constructor
  · rintro ⟨_, hx, hc⟩
    exact ⟨hx, hc⟩
  · rintro ⟨hx, hc⟩
    exact ⟨hcov x hx hc, hx, hc⟩


/-! The claims. -/

/-- Claim C2 (code evidence): the fail-fast precondition check does not
exist in the code — the `Panic` calls are commented out.  With
`before = 5` absent from the link list `[1, 2]`, `Model::InsertLinkBefore`
silently inserts at the end (`std::find` returns `end()`, and
`std::vector::insert` at `end()` appends); `ChangeLink` and
`InsertLinkAfter` would instead dereference past the end.  This theorem
evaluates the embedded code at the failing input and shows it silently
proceeds rather than failing. -/
theorem C2_insertLinkBefore_silently_appends :
    insertLinkBefore [1, 2] 5 7 = [1, 2, 7] ∧ (5 : ℕ) ∉ [1, 2] := by
  decide

/-- Claim C9: `Model::UpdateBatch` never writes the food output buffer —
the third buffer of the parallel phase is returned exactly as passed in,
for every cell range, worker index and stride, so per-step food change can
only happen in the sequential `Commit` phase. -/
theorem C9_updateBatch_preserves_food (m : Model) (nearby : Vec3 → List ℕ) (wi wn : ℕ)
    (bufs : Buffers) : (m.UpdateBatch nearby wi wn bufs).2.2 = bufs.2.2 := by
  rw [UpdateBatch_eq]

/-- Claim C10: `Model::Split` modifies only the parent, the new child and
the parent's original neighbours: every other existing cell keeps its
position, normal, food and link list, and the parent's neighbours keep
their position, normal and food (only their link lists are rewired). -/
theorem C10_split_frame (m : Model) (p i0 : ℕ)
    (hp : p < m.m_Links.length)
    (hszP : m.m_Positions.length = m.m_Links.length)
    (hszN : m.m_Normals.length = m.m_Links.length)
    (hszF : m.m_Food.length = m.m_Links.length)
    (hn : 1 ≤ (ringOf m p).length)
    (hirr : p ∉ ringOf m p)
    (hbd : ∀ x ∈ ringOf m p, x < m.m_Links.length) :
    (∀ k < m.m_Links.length, k ≠ p → k ∉ ringOf m p →
      (m.Split p i0).m_Positions.getD k 0 = m.m_Positions.getD k 0 ∧
      (m.Split p i0).m_Normals.getD k 0 = m.m_Normals.getD k 0 ∧
      (m.Split p i0).m_Food.getD k 0 = m.m_Food.getD k 0 ∧
      (m.Split p i0).m_Links.getD k [] = m.m_Links.getD k []) ∧
    (∀ k ∈ ringOf m p,
      (m.Split p i0).m_Positions.getD k 0 = m.m_Positions.getD k 0 ∧
      (m.Split p i0).m_Normals.getD k 0 = m.m_Normals.getD k 0 ∧
      (m.Split p i0).m_Food.getD k 0 = m.m_Food.getD k 0) := by
  constructor
  · intro k hk hkp hkr
    have hkc : k ≠ m.m_Links.length := Nat.ne_of_lt hk
    exact ⟨split_positions_getD_other m p i0 hkp hkc (by omega),
           split_normals_getD_other m p i0 hkp hkc (by omega),
           split_food_getD_other m p i0 hkp (by omega),
           split_links_getD_other m p i0 hn hkp hkc hkr⟩
  · intro k hkr
    have hkp : k ≠ p := by
      intro hc
      rw [hc] at hkr
      exact hirr hkr
    have hklt : k < m.m_Links.length := hbd k hkr
    have hkc : k ≠ m.m_Links.length := Nat.ne_of_lt hklt
    exact ⟨split_positions_getD_other m p i0 hkp hkc (by omega),
           split_normals_getD_other m p i0 hkp hkc (by omega),
           split_food_getD_other m p i0 hkp (by omega)⟩

/-- Witness for claim C10 at the concrete seven-cell wheel, splitting the
hub. -/
theorem C10_split_frame_witness :
    (0 < mWheel.m_Links.length ∧
     mWheel.m_Positions.length = mWheel.m_Links.length ∧
     mWheel.m_Normals.length = mWheel.m_Links.length ∧
     mWheel.m_Food.length = mWheel.m_Links.length ∧
     1 ≤ (ringOf mWheel 0).length ∧
     0 ∉ ringOf mWheel 0 ∧
     (∀ x ∈ ringOf mWheel 0, x < mWheel.m_Links.length)) ∧
    ((∀ k < mWheel.m_Links.length, k ≠ 0 → k ∉ ringOf mWheel 0 →
      (mWheel.Split 0 0).m_Positions.getD k 0 = mWheel.m_Positions.getD k 0 ∧
      (mWheel.Split 0 0).m_Normals.getD k 0 = mWheel.m_Normals.getD k 0 ∧
      (mWheel.Split 0 0).m_Food.getD k 0 = mWheel.m_Food.getD k 0 ∧
      (mWheel.Split 0 0).m_Links.getD k [] = mWheel.m_Links.getD k []) ∧
    (∀ k ∈ ringOf mWheel 0,
      (mWheel.Split 0 0).m_Positions.getD k 0 = mWheel.m_Positions.getD k 0 ∧
      (mWheel.Split 0 0).m_Normals.getD k 0 = mWheel.m_Normals.getD k 0 ∧
      (mWheel.Split 0 0).m_Food.getD k 0 = mWheel.m_Food.getD k 0)) :=
  ⟨⟨by decide, by decide, by decide, by decide, by decide, by decide, by decide⟩,
   C10_split_frame mWheel 0 0 (by decide) (by decide) (by decide) (by decide)
     (by decide) (by decide) (by decide)⟩

/-- Claim C8: ring-partitioning policy of `Model::Split`.  With ring
`ringOf m p` of length `n`, cleavage offsets `i0` and `i1 = i0 + n / 2`:
the parent keeps the arc `links[i0 % n] .. links[i1 % n]` (a rotation of
the ring by `i0` truncated to `n / 2 + 1` cells) plus the child appended;
the child receives the complementary arc (rotation by `i1` truncated to
`n - n / 2 + 1` cells) plus the parent appended; the child index is
inserted immediately after the first occurrence of the parent in
`links[i0 % n]`'s list and immediately before the first occurrence of the
parent in `links[i1 % n]`'s list. -/
theorem C8_split_ring_policy (m : Model) (p i0 : ℕ)
    (hp : p < m.m_Links.length)
    (h2 : 2 ≤ (ringOf m p).length)
    (hirr : p ∉ ringOf m p)
    (hbd : ∀ x ∈ ringOf m p, x < m.m_Links.length)
    (hnd : (ringOf m p).Nodup)
    (pre0 suf0 pre1 suf1 : List ℕ)
    (hb0 : m.m_Links.getD (bnd0 m p i0) [] = pre0 ++ p :: suf0) (hb0p : p ∉ pre0)
    (hb1 : m.m_Links.getD (bnd1 m p i0) [] = pre1 ++ p :: suf1) (hb1p : p ∉ pre1) :
    (m.Split p i0).m_Links.getD p []
        = ((ringOf m p).rotate i0).take ((ringOf m p).length / 2 + 1)
          ++ [m.m_Links.length] ∧
    (m.Split p i0).m_Links.getD m.m_Links.length []
        = ((ringOf m p).rotate (i0 + (ringOf m p).length / 2)).take
            ((ringOf m p).length - (ringOf m p).length / 2 + 1) ++ [p] ∧
    (m.Split p i0).m_Links.getD (bnd0 m p i0) []
        = pre0 ++ p :: m.m_Links.length :: suf0 ∧
    (m.Split p i0).m_Links.getD (bnd1 m p i0) []
        = pre1 ++ m.m_Links.length :: p :: suf1 := by
  refine ⟨?_, ?_, ?_, ?_⟩
  · rw [splitP m p i0 hp (by omega) hirr]
    rw [show keptArc m p i0
        = arcValues (ringOf m p) i0 ((ringOf m p).length / 2 + 1) from rfl]
    rw [arcValues_eq_rotate_take (by omega)]
  · rw [splitC m p i0 hp (by omega) hbd]
    rw [show childArcOf m p i0
        = arcValues (ringOf m p) (i0 + (ringOf m p).length / 2)
            ((ringOf m p).length - (ringOf m p).length / 2 + 1) from rfl]
    rw [arcValues_eq_rotate_take (by omega)]
  · rw [splitB0 m p i0 hp h2 hirr hbd hnd, hb0]
    exact insertLinkAfter_append_first pre0 suf0 p m.m_Links.length hb0p
  · rw [splitB1 m p i0 hp h2 hirr hbd hnd, hb1]
    exact insertLinkBefore_append_first pre1 suf1 p m.m_Links.length hb1p

/-- Witness for claim C8 at the seven-cell wheel, splitting the hub with
`i0 = 0` (so `bnd0 = 1`, `bnd1 = 4`, and both boundary lists are `[0]`
with empty prefixes and suffixes). -/
theorem C8_split_ring_policy_witness :
    (0 < mWheel.m_Links.length ∧
     2 ≤ (ringOf mWheel 0).length ∧
     0 ∉ ringOf mWheel 0 ∧
     (∀ x ∈ ringOf mWheel 0, x < mWheel.m_Links.length) ∧
     (ringOf mWheel 0).Nodup ∧
     mWheel.m_Links.getD (bnd0 mWheel 0 0) [] = [] ++ 0 :: [] ∧
     (0 : ℕ) ∉ ([] : List ℕ) ∧
     mWheel.m_Links.getD (bnd1 mWheel 0 0) [] = [] ++ 0 :: []) ∧
    ((mWheel.Split 0 0).m_Links.getD 0 []
        = ((ringOf mWheel 0).rotate 0).take ((ringOf mWheel 0).length / 2 + 1)
          ++ [mWheel.m_Links.length] ∧
     (mWheel.Split 0 0).m_Links.getD mWheel.m_Links.length []
        = ((ringOf mWheel 0).rotate (0 + (ringOf mWheel 0).length / 2)).take
            ((ringOf mWheel 0).length - (ringOf mWheel 0).length / 2 + 1) ++ [0] ∧
     (mWheel.Split 0 0).m_Links.getD (bnd0 mWheel 0 0) []
        = [] ++ 0 :: mWheel.m_Links.length :: [] ∧
     (mWheel.Split 0 0).m_Links.getD (bnd1 mWheel 0 0) []
        = [] ++ mWheel.m_Links.length :: 0 :: []) :=
  ⟨⟨by decide, by decide, by decide, by decide, by decide, by decide, by decide, by decide⟩,
   C8_split_ring_policy mWheel 0 0 (by decide) (by decide) (by decide) (by decide)
     (by decide) [] [] [] [] (by decide) (by decide) (by decide) (by decide)⟩

/-- Claim C5: splitting a valence-6 cell with cleavage offset `i0 = 0`
partitions its ring into the two halves `take 3` / `drop 3` (each of size
3, together the whole ring), every member of the first half stays linked
to the parent and every member of the second half becomes linked to the
child, exactly three undirected links are added (the degree sum grows by
6: parent–child plus child to each boundary neighbour, witnessed by the
six explicit memberships), and the child has valence 5. -/
theorem C5_split_valence6 (m : Model) (p : ℕ)
    (hp : p < m.m_Links.length)
    (hL6 : (ringOf m p).length = 6)
    (hirr : p ∉ ringOf m p)
    (hbd : ∀ x ∈ ringOf m p, x < m.m_Links.length)
    (hnd : (ringOf m p).Nodup)
    (hpb0 : p ∈ m.m_Links.getD (bnd0 m p 0) [])
    (hpb1 : p ∈ m.m_Links.getD (bnd1 m p 0) []) :
    (((ringOf m p).take 3).length = 3 ∧ ((ringOf m p).drop 3).length = 3 ∧
      (ringOf m p).take 3 ++ (ringOf m p).drop 3 = ringOf m p) ∧
    ((∀ j ∈ (ringOf m p).take 3, j ∈ (m.Split p 0).m_Links.getD p []) ∧
     (∀ j ∈ (ringOf m p).drop 3, j ∈ (m.Split p 0).m_Links.getD m.m_Links.length [])) ∧
    ((m.Split p 0).m_Links.getD m.m_Links.length []).length = 5 ∧
    (m.m_Links.length ∈ (m.Split p 0).m_Links.getD p [] ∧
     p ∈ (m.Split p 0).m_Links.getD m.m_Links.length [] ∧
     m.m_Links.length ∈ (m.Split p 0).m_Links.getD (bnd0 m p 0) [] ∧
     bnd0 m p 0 ∈ (m.Split p 0).m_Links.getD m.m_Links.length [] ∧
     m.m_Links.length ∈ (m.Split p 0).m_Links.getD (bnd1 m p 0) [] ∧
     bnd1 m p 0 ∈ (m.Split p 0).m_Links.getD m.m_Links.length []) ∧
    ((m.Split p 0).m_Links.map List.length).sum
      = (m.m_Links.map List.length).sum + 6 := by
  have htake : (ringOf m p).take 3 = arcValues (ringOf m p) 0 3 := by
    rw [arcValues_eq_rotate_take (by omega), List.rotate_zero]
  have hdroplen : ((ringOf m p).drop 3).length = 3 := by
    simp [hL6]
  have hdrop : (ringOf m p).drop 3 = arcValues (ringOf m p) 3 3 := by
    have h1 := List.take_left ((ringOf m p).drop 3) ((ringOf m p).take 3)
    rw [hdroplen] at h1
    rw [arcValues_eq_rotate_take (by omega),
        List.rotate_eq_drop_append_take (by omega), h1]
  refine ⟨⟨by simp [hL6], hdroplen, List.take_append_drop 3 (ringOf m p)⟩,
    ⟨?_, ?_⟩, ?_, ⟨?_, ?_, ?_, ?_, ?_, ?_⟩, ?_⟩
  · intro j hj
    rw [htake] at hj
    rcases mem_arcValues.mp hj with ⟨t, ht3, rfl⟩
    rw [splitP m p 0 hp (by omega) hirr]
    refine List.mem_append_left _ ?_
    rw [show keptArc m p 0
        = arcValues (ringOf m p) 0 ((ringOf m p).length / 2 + 1) from rfl]
    exact mem_arcValues.mpr ⟨t, by omega, rfl⟩
  · intro j hj
    rw [hdrop] at hj
    rcases mem_arcValues.mp hj with ⟨t, ht3, rfl⟩
    rw [splitC m p 0 hp (by omega) hbd]
    refine List.mem_append_left _ ?_
    rw [show childArcOf m p 0
        = arcValues (ringOf m p) (0 + (ringOf m p).length / 2)
            ((ringOf m p).length - (ringOf m p).length / 2 + 1) from rfl]
    have harg : (0 + (ringOf m p).length / 2 + t) % (ringOf m p).length
        = (3 + t) % (ringOf m p).length := by
      rw [hL6]
    exact mem_arcValues.mpr ⟨t, by omega, by rw [harg]⟩
  · rw [splitC m p 0 hp (by omega) hbd]
    rw [show childArcOf m p 0
        = arcValues (ringOf m p) (0 + (ringOf m p).length / 2)
            ((ringOf m p).length - (ringOf m p).length / 2 + 1) from rfl]
    simp [length_arcValues, hL6]
  · rw [splitP m p 0 hp (by omega) hirr]
    simp
  · rw [splitC m p 0 hp (by omega) hbd]
    simp
  · rw [splitB0 m p 0 hp (by omega) hirr hbd hnd]
    exact mem_insertLinkAfter_target _ hpb0
  · rw [splitC m p 0 hp (by omega) hbd]
    exact List.mem_append_left _ ((mem_childArcA 0 (by omega)).mpr (Or.inr (Or.inr rfl)))
  · rw [splitB1 m p 0 hp (by omega) hirr hbd hnd]
    exact mem_insertLinkBefore_target _ _ _
  · rw [splitC m p 0 hp (by omega) hbd]
    exact List.mem_append_left _ ((mem_childArcA 0 (by omega)).mpr (Or.inl rfl))
  · have hsum := split_sum_map_length m p 0 hp (by omega) hirr hbd hnd hpb0 hpb1
    rw [hL6] at hsum
    omega

/-- Witness for claim C5 at the seven-cell wheel: the hub has valence 6
and splitting it with offset 0 exhibits every conjunct concretely. -/
theorem C5_split_valence6_witness :
    (0 < mWheel.m_Links.length ∧
     (ringOf mWheel 0).length = 6 ∧
     0 ∉ ringOf mWheel 0 ∧
     (∀ x ∈ ringOf mWheel 0, x < mWheel.m_Links.length) ∧
     (ringOf mWheel 0).Nodup ∧
     0 ∈ mWheel.m_Links.getD (bnd0 mWheel 0 0) [] ∧
     0 ∈ mWheel.m_Links.getD (bnd1 mWheel 0 0) []) ∧
    ((((ringOf mWheel 0).take 3).length = 3 ∧ ((ringOf mWheel 0).drop 3).length = 3 ∧
      (ringOf mWheel 0).take 3 ++ (ringOf mWheel 0).drop 3 = ringOf mWheel 0) ∧
    ((∀ j ∈ (ringOf mWheel 0).take 3, j ∈ (mWheel.Split 0 0).m_Links.getD 0 []) ∧
     (∀ j ∈ (ringOf mWheel 0).drop 3,
        j ∈ (mWheel.Split 0 0).m_Links.getD mWheel.m_Links.length [])) ∧
    ((mWheel.Split 0 0).m_Links.getD mWheel.m_Links.length []).length = 5 ∧
    (mWheel.m_Links.length ∈ (mWheel.Split 0 0).m_Links.getD 0 [] ∧
     0 ∈ (mWheel.Split 0 0).m_Links.getD mWheel.m_Links.length [] ∧
     mWheel.m_Links.length ∈ (mWheel.Split 0 0).m_Links.getD (bnd0 mWheel 0 0) [] ∧
     bnd0 mWheel 0 0 ∈ (mWheel.Split 0 0).m_Links.getD mWheel.m_Links.length [] ∧
     mWheel.m_Links.length ∈ (mWheel.Split 0 0).m_Links.getD (bnd1 mWheel 0 0) [] ∧
     bnd1 mWheel 0 0 ∈ (mWheel.Split 0 0).m_Links.getD mWheel.m_Links.length []) ∧
    ((mWheel.Split 0 0).m_Links.map List.length).sum
      = (mWheel.m_Links.map List.length).sum + 6) :=
  ⟨⟨by decide, by decide, by decide, by decide, by decide, by decide, by decide⟩,
   C5_split_valence6 mWheel 0 (by decide) (by decide) (by decide) (by decide)
     (by decide) (by decide) (by decide)⟩

/-- Counterexample to claim C3 as stated: the reachable states include
arbitrary link mutations (`ChangeLink` / `InsertLinkBefore` /
`InsertLinkAfter` take arbitrary arguments and check nothing), and a
single `InsertLinkAfter` on a symmetric self-loop-free state yields an
asymmetric adjacency: inserting 2 after 1 in cell 0's list links 0 to 2
without linking 2 back to 0. -/
theorem C3_counterexample :
    LinkSymmetric mPair.m_Links ∧ SelfLoopFree mPair.m_Links ∧
    ReachableFrom mPair (mPair.InsertLinkAfter 0 1 2) ∧
    ¬ LinkSymmetric (mPair.InsertLinkAfter 0 1 2).m_Links :=
  ⟨by decide, by decide,
   ReachableFrom.insertAfter mPair 0 1 2 ReachableFrom.base, by decide⟩

/-- Claim C3 (amended): along sequences consisting of construction
followed by `Split` operations only — each targeting an existing cell
whose ring has at least two members at the moment it runs — adjacency
well-formedness (symmetry, self-loop freedom, per-list distinctness,
index boundedness) is preserved. -/
theorem C3_split_sequences_preserve_wf (m : Model) (ops : List (ℕ × ℕ))
    (hwf : LinksWF m.m_Links) (hgood : GoodSeq m ops) :
    LinksWF (m.SplitSeq ops).m_Links := by
  induction ops generalizing m with
  | nil => simpa [Model.SplitSeq] using hwf
  | cons pr rest ih =>
    simp only [GoodSeq] at hgood
    obtain ⟨h1, h2, h3⟩ := hgood
    have hwf' := split_preserves_wf m pr.1 pr.2 h1 h2 hwf
    have hstep : m.SplitSeq (pr :: rest) = (m.Split pr.1 pr.2).SplitSeq rest := rfl
    rw [hstep]
    exact ih _ hwf' h3

/-- Witness for the amended claim C3: the seven-cell wheel is well formed
and stays well formed after splitting the hub. -/
theorem C3_split_sequences_preserve_wf_witness :
    (LinksWF mWheel.m_Links ∧ GoodSeq mWheel [(0, 0)]) ∧
    LinksWF (mWheel.SplitSeq [(0, 0)]).m_Links :=
  ⟨⟨by decide, by exact ⟨by decide, by decide, trivial⟩⟩,
   C3_split_sequences_preserve_wf mWheel [(0, 0)] (by decide)
     (by exact ⟨by decide, by decide, trivial⟩)⟩

/-- Counterexample to claim C4 as stated: `Model::Commit` splits only when
food strictly exceeds the threshold (`m_Food[i] > m_SplitThreshold`), so a
cell whose food lands exactly on the threshold is NOT split and the state
`food = splitThreshold` survives the commit — the committed interval is
the closed `[0, splitThreshold]`, not the half-open `[0, splitThreshold)`.
Here a single cell with food `99.5` receives a draw of `0.5`. -/
theorem C4_counterexample :
    (mEdge.Commit [((0 : ℝ), (0 : ℝ), (0 : ℝ))] [((0 : ℝ), (0 : ℝ), (0 : ℝ))]
        [(199 : ℝ) / 2] [((1 : ℝ) / 2, 0)]).elim False (fun mm =>
      mm.m_Food.getD 0 0 = mm.m_SplitThreshold ∧
      ¬ mm.m_Food.getD 0 0 < mm.m_SplitThreshold) := by
  norm_num [Model.Commit, Model.splitLoop, mEdge, List.getD]

/-- Claim C4 (amended): after every committed step, every cell's food lies
in the closed interval `[0, splitThreshold]` — splits triggered by the
strict comparison reset the parent's food to 0, random increments are
nonnegative, and a value exactly at the threshold persists. -/
theorem C4_commit_food_bounds (m : Model) (newPositions newNormals : List Vec3)
    (newFood : List ℝ) (draws : List (ℝ × ℕ))
    (hT : 0 ≤ m.m_SplitThreshold)
    (hdraws : ∀ d ∈ draws, 0 ≤ d.1)
    (hF : ∀ j, 0 ≤ newFood.getD j 0) :
    (m.Commit newPositions newNormals newFood draws).elim True (fun mm =>
      ∀ j < mm.m_Food.length,
        0 ≤ mm.m_Food.getD j 0 ∧ mm.m_Food.getD j 0 ≤ mm.m_SplitThreshold) := by
  cases hrun : m.Commit newPositions newNormals newFood draws with
  | none => exact trivial
  | some mm =>
    simp only [Model.Commit] at hrun
    exact splitLoop_food_bounds draws _ 0 mm hrun hT hdraws
      (fun j hj => absurd hj (Nat.not_lt_zero j)) hF

/-- Witness for the amended claim C4: a single cell with food 50 and a
draw of 1/2 commits to food 50.5 ∈ [0, 100]. -/
theorem C4_commit_food_bounds_witness :
    ((0 : ℝ) ≤ mEdge.m_SplitThreshold ∧
     (∀ d ∈ [((1 : ℝ) / 2, (0 : ℕ))], (0 : ℝ) ≤ d.1) ∧
     (∀ j, (0 : ℝ) ≤ ([(50 : ℝ)]).getD j 0)) ∧
    (mEdge.Commit [((0 : ℝ), (0 : ℝ), (0 : ℝ))] [((0 : ℝ), (0 : ℝ), (0 : ℝ))]
        [(50 : ℝ)] [((1 : ℝ) / 2, 0)]).elim True (fun mm =>
      ∀ j < mm.m_Food.length,
        0 ≤ mm.m_Food.getD j 0 ∧ mm.m_Food.getD j 0 ≤ mm.m_SplitThreshold) :=
  ⟨⟨by norm_num [mEdge],
    by
      intro d hd
      rw [List.mem_singleton] at hd
      subst hd
      norm_num,
    by
      intro j
      cases j with
      | zero => norm_num [List.getD]
      | succ n => simp [List.getD]⟩,
   C4_commit_food_bounds mEdge _ _ _ _ (by norm_num [mEdge])
     (by
       intro d hd
       rw [List.mem_singleton] at hd
       subst hd
       norm_num)
     (by
       intro j
       cases j with
       | zero => norm_num [List.getD]
       | succ n => simp [List.getD])⟩

/-- Claim C7: for every committed snapshot and worker count `wn ≥ 1`,
running the force phase as `wn` strided batches (worker `wi` handling the
cells `i ≡ wi (mod wn)`) produces exactly the buffers of a single worker
(`wi = 0`, `wn = 1`) over the same snapshot: each buffer slot is written
by exactly one worker, from snapshot data only. -/
theorem C7_strided_batches_deterministic (m : Model) (nearby : Vec3 → List ℕ)
    (wn : ℕ) (bufs : Buffers) (hwn : 1 ≤ wn) :
    m.runBatches nearby wn bufs = m.UpdateBatch nearby 0 1 bufs := by
  have hg : ∀ (l : List Vec3) (t : ℕ) (h : t < l.length), l[t] = l.getD t 0 := by
    intro l t h
    rw [List.getD_eq_getElem?_getD, List.getElem?_eq_getElem h]
    rfl
  have hmw : ∀ t : ℕ, t % wn < wn := fun t => Nat.mod_lt t (by omega)
  refine Prod.ext_iff.mpr ⟨?_, Prod.ext_iff.mpr ⟨?_, ?_⟩⟩
  · have hL1 : (m.runBatches nearby wn bufs).1.length = bufs.1.length :=
      runBatches_fst_length m nearby wn (List.range wn) bufs
    have hL2 : (m.UpdateBatch nearby 0 1 bufs).1.length = bufs.1.length := by
      rw [UpdateBatch_eq]
      exact foldl_cond_set_length _ _ _ _
    apply List.ext_getElem (hL1.trans hL2.symm)
    intro t h1 h2
    rw [hg _ t h1, hg _ t h2]
    have e1 : (m.runBatches nearby wn bufs).1.getD t 0
        = if t < m.m_Positions.length ∧ t % wn ∈ List.range wn ∧ t < bufs.1.length
          then m.cellNewPosition nearby t else bufs.1.getD t 0 :=
      runBatches_fst_getD m nearby wn (List.range wn) bufs t
    have e2 : (m.UpdateBatch nearby 0 1 bufs).1.getD t 0
        = if t ∈ List.range m.m_Positions.length ∧ t % 1 = 0 ∧ t < bufs.1.length
          then m.cellNewPosition nearby t else bufs.1.getD t 0 := by
      rw [show (m.UpdateBatch nearby 0 1 bufs).1
          = (List.range m.m_Positions.length).foldl
              (fun b i => if i % 1 = 0 then b.set i (m.cellNewPosition nearby i) else b)
              bufs.1 by rw [UpdateBatch_eq]]
      exact foldl_cond_set_getD _ _ _ _ _
    rw [e1, e2]
    simp [List.mem_range, hmw t, Nat.mod_one]
  · have hL1 : (m.runBatches nearby wn bufs).2.1.length = bufs.2.1.length :=
      runBatches_snd_length m nearby wn (List.range wn) bufs
    have hL2 : (m.UpdateBatch nearby 0 1 bufs).2.1.length = bufs.2.1.length := by
      rw [UpdateBatch_eq]
      exact foldl_cond_set_length _ _ _ _
    apply List.ext_getElem (hL1.trans hL2.symm)
    intro t h1 h2
    rw [hg _ t h1, hg _ t h2]
    have e1 : (m.runBatches nearby wn bufs).2.1.getD t 0
        = if t < m.m_Positions.length ∧ t % wn ∈ List.range wn ∧ t < bufs.2.1.length
          then m.CellNormal t else bufs.2.1.getD t 0 :=
      runBatches_snd_getD m nearby wn (List.range wn) bufs t
    have e2 : (m.UpdateBatch nearby 0 1 bufs).2.1.getD t 0
        = if t ∈ List.range m.m_Positions.length ∧ t % 1 = 0 ∧ t < bufs.2.1.length
          then m.CellNormal t else bufs.2.1.getD t 0 := by
      rw [show (m.UpdateBatch nearby 0 1 bufs).2.1
          = (List.range m.m_Positions.length).foldl
              (fun b i => if i % 1 = 0 then b.set i (m.CellNormal i) else b)
              bufs.2.1 by rw [UpdateBatch_eq]]
      exact foldl_cond_set_getD _ _ _ _ _
    rw [e1, e2]
    simp [List.mem_range, hmw t, Nat.mod_one]
  · have f1 : (m.runBatches nearby wn bufs).2.2 = bufs.2.2 :=
      runBatches_trd m nearby wn (List.range wn) bufs
    have f2 : (m.UpdateBatch nearby 0 1 bufs).2.2 = bufs.2.2 := by
      rw [UpdateBatch_eq]
    exact f1.trans f2.symm

/-- Witness for claim C7: two workers over the one-cell model agree with
the single-worker run. -/
theorem C7_strided_batches_deterministic_witness :
    1 ≤ 2 ∧
    mEdge.runBatches (fun _ => []) 2
        ([((0 : ℝ), (0 : ℝ), (0 : ℝ))], [((0 : ℝ), (0 : ℝ), (0 : ℝ))], [(0 : ℝ)])
      = mEdge.UpdateBatch (fun _ => []) 0 1
          ([((0 : ℝ), (0 : ℝ), (0 : ℝ))], [((0 : ℝ), (0 : ℝ), (0 : ℝ))], [(0 : ℝ)]) :=
  ⟨by decide,
   C7_strided_batches_deterministic mEdge (fun _ => []) 2
     ([((0 : ℝ), (0 : ℝ), (0 : ℝ))], [((0 : ℝ), (0 : ℝ), (0 : ℝ))], [(0 : ℝ)])
     (by decide)⟩

/-- Counterexample to claim C1 as stated: the spec's formula
`L − normalize(P−L)·restLength` has the bond direction reversed.  For two
cells at distance 2 with rest length 1, the code's spring target for cell
0 is `(1,0,0)` (one unit from the neighbour, toward cell 0), while the
spec's formula gives `(3,0,0)` (one unit past the neighbour, away from
cell 0). -/
theorem C1_counterexample :
    ¬ ((mStretch.averaged 0).springTarget
      = (1 / ((mStretch.m_Links.getD 0 []).length : ℝ)) •
          ((mStretch.m_Links.getD 0 []).map (fun j =>
            mStretch.m_Positions.getD j 0 - mStretch.m_LinkRestLength •
              glm.normalize (mStretch.m_Positions.getD 0 0
                - mStretch.m_Positions.getD j 0))).sum) := by
  have h4 : Real.sqrt 4 = 2 := by
    rw [show (4 : ℝ) = 2 ^ 2 by norm_num]
    exact Real.sqrt_sq (by norm_num)
  rw [averaged_springTarget]
  intro h
  have h1 := congrArg Prod.fst h
  simp [mStretch, glm.normalize, glm.length, glm.length2, glm.dot, List.getD] at h1
  norm_num [h4] at h1

/-- Claim C1 (amended): for every cell `i` with at least one linked
neighbour, the spring target equals the arithmetic mean over linked
neighbours `L` of `L + normalize(P−L)·restLength` (equivalently
`L − normalize(L−P)·restLength`): a point at exactly rest length from `L`
along the bond direction, on the side of `P` — a constant-rate restoring
term, not proportional to stretch. -/
theorem C1_spring_target (m : Model) (i : ℕ)
    (hn : 1 ≤ (m.m_Links.getD i []).length) :
    (m.averaged i).springTarget
      = (1 / ((m.m_Links.getD i []).length : ℝ)) • ((m.m_Links.getD i []).map (fun j =>
          m.m_Positions.getD j 0 + m.m_LinkRestLength •
            glm.normalize (m.m_Positions.getD i 0 - m.m_Positions.getD j 0))).sum := by
  rw [averaged_springTarget]
  congr 1
  apply congrArg List.sum
  apply List.map_congr_left
  intro j _
  rw [show m.m_Positions.getD i 0 - m.m_Positions.getD j 0
      = -(m.m_Positions.getD j 0 - m.m_Positions.getD i 0) from (neg_sub _ _).symm,
    normalize_neg, smul_neg, ← sub_eq_add_neg]

/-- Witness for the amended claim C1 at the two-cell stretched pair. -/
theorem C1_spring_target_witness :
    1 ≤ (mStretch.m_Links.getD 0 []).length ∧
    (mStretch.averaged 0).springTarget
      = (1 / ((mStretch.m_Links.getD 0 []).length : ℝ)) •
          ((mStretch.m_Links.getD 0 []).map (fun j =>
            mStretch.m_Positions.getD j 0 + mStretch.m_LinkRestLength •
              glm.normalize (mStretch.m_Positions.getD 0 0
                - mStretch.m_Positions.getD j 0))).sum :=
  ⟨by decide, C1_spring_target mStretch 0 (by decide)⟩


/-- Claim C6: the repulsion vector of `Model::UpdateBatch` — the
pre-subtraction accumulated during the link pass combined with the
index-query pass — equals the sum of
`normalize(P−L)·(roi²−d²)/roi²` over exactly the non-linked, non-self
cells returned by the index that lie within the radius of influence of
`P`, provided the index returns distinct cells and covers every linked
neighbour within the radius: the pre-subtraction is an algebraic
cancellation, not a fifth force. -/
theorem C6_repulsion_equiv (m : Model) (nearby : Vec3 → List ℕ) (i : ℕ)
    (hqnd : (nearby (m.m_Positions.getD i 0)).Nodup)
    (hlnd : (m.m_Links.getD i []).Nodup)
    (hirr : i ∉ m.m_Links.getD i [])
    (hcov : ∀ j ∈ m.m_Links.getD i [],
      glm.length2 (m.m_Positions.getD i 0 - m.m_Positions.getD j 0)
        < m.m_RadiusOfInfluence * m.m_RadiusOfInfluence →
      j ∈ nearby (m.m_Positions.getD i 0)) :
    m.repulsionOf nearby i
      = ((nearby (m.m_Positions.getD i 0)).map (fun j =>
          if j ∉ m.m_Links.getD i [] ∧ j ≠ i ∧
              glm.length2 (m.m_Positions.getD i 0 - m.m_Positions.getD j 0)
                < m.m_RadiusOfInfluence * m.m_RadiusOfInfluence then
            ((m.m_RadiusOfInfluence * m.m_RadiusOfInfluence
                - glm.length2 (m.m_Positions.getD i 0 - m.m_Positions.getD j 0))
              / (m.m_RadiusOfInfluence * m.m_RadiusOfInfluence)) •
              glm.normalize (m.m_Positions.getD i 0 - m.m_Positions.getD j 0)
          else 0)).sum := by
  have hrep : m.repulsionOf nearby i
      = (m.averaged i).repulsionVector + ((nearby (m.m_Positions.getD i 0)).map (fun j =>
          if j ≠ i ∧ glm.length2 (m.m_Positions.getD i 0 - m.m_Positions.getD j 0)
              < m.m_RadiusOfInfluence * m.m_RadiusOfInfluence then
            ((m.m_RadiusOfInfluence * m.m_RadiusOfInfluence
                - glm.length2 (m.m_Positions.getD i 0 - m.m_Positions.getD j 0))
              / (m.m_RadiusOfInfluence * m.m_RadiusOfInfluence)) •
              glm.normalize (m.m_Positions.getD i 0 - m.m_Positions.getD j 0)
          else 0)).sum := by
    simp only [Model.repulsionOf]
    exact repulsion_fold_eq m i (m.m_RadiusOfInfluence * m.m_RadiusOfInfluence)
      (m.m_Positions.getD i 0) (nearby (m.m_Positions.getD i 0))
      (m.averaged i).repulsionVector
  rw [hrep, averaged_repulsionVector]
  rw [show (m.accumulate i).repulsionVector = ((m.m_Links.getD i []).map (fun j =>
        if glm.length2 (m.m_Positions.getD j 0 - m.m_Positions.getD i 0)
            < m.m_RadiusOfInfluence * m.m_RadiusOfInfluence then
          ((m.m_RadiusOfInfluence * m.m_RadiusOfInfluence
              - glm.length2 (m.m_Positions.getD j 0 - m.m_Positions.getD i 0))
            / (m.m_RadiusOfInfluence * m.m_RadiusOfInfluence)) •
            glm.normalize (m.m_Positions.getD j 0 - m.m_Positions.getD i 0)
        else 0)).sum from by rw [accumulate_eq]]
  have hneg : (m.m_Links.getD i []).map (fun j =>
        if glm.length2 (m.m_Positions.getD j 0 - m.m_Positions.getD i 0)
            < m.m_RadiusOfInfluence * m.m_RadiusOfInfluence then
          ((m.m_RadiusOfInfluence * m.m_RadiusOfInfluence
              - glm.length2 (m.m_Positions.getD j 0 - m.m_Positions.getD i 0))
            / (m.m_RadiusOfInfluence * m.m_RadiusOfInfluence)) •
            glm.normalize (m.m_Positions.getD j 0 - m.m_Positions.getD i 0)
        else 0)
      = (m.m_Links.getD i []).map (fun j =>
        -(if glm.length2 (m.m_Positions.getD i 0 - m.m_Positions.getD j 0)
            < m.m_RadiusOfInfluence * m.m_RadiusOfInfluence then
          ((m.m_RadiusOfInfluence * m.m_RadiusOfInfluence
              - glm.length2 (m.m_Positions.getD i 0 - m.m_Positions.getD j 0))
            / (m.m_RadiusOfInfluence * m.m_RadiusOfInfluence)) •
            glm.normalize (m.m_Positions.getD i 0 - m.m_Positions.getD j 0)
        else 0)) := by
    apply List.map_congr_left
    intro j _
    rw [show m.m_Positions.getD j 0 - m.m_Positions.getD i 0
        = -(m.m_Positions.getD i 0 - m.m_Positions.getD j 0) from (neg_sub _ _).symm]
    rw [length2_neg, normalize_neg, smul_neg]
    split_ifs with h
    · rfl
    · rw [neg_zero]
  rw [hneg, sum_map_negf]
  have hsplitq : (nearby (m.m_Positions.getD i 0)).map (fun j =>
        if j ≠ i ∧ glm.length2 (m.m_Positions.getD i 0 - m.m_Positions.getD j 0)
            < m.m_RadiusOfInfluence * m.m_RadiusOfInfluence then
          ((m.m_RadiusOfInfluence * m.m_RadiusOfInfluence
              - glm.length2 (m.m_Positions.getD i 0 - m.m_Positions.getD j 0))
            / (m.m_RadiusOfInfluence * m.m_RadiusOfInfluence)) •
            glm.normalize (m.m_Positions.getD i 0 - m.m_Positions.getD j 0)
        else 0)
      = (nearby (m.m_Positions.getD i 0)).map (fun j =>
        (if j ∈ m.m_Links.getD i [] ∧
            glm.length2 (m.m_Positions.getD i 0 - m.m_Positions.getD j 0)
              < m.m_RadiusOfInfluence * m.m_RadiusOfInfluence then
          ((m.m_RadiusOfInfluence * m.m_RadiusOfInfluence
              - glm.length2 (m.m_Positions.getD i 0 - m.m_Positions.getD j 0))
            / (m.m_RadiusOfInfluence * m.m_RadiusOfInfluence)) •
            glm.normalize (m.m_Positions.getD i 0 - m.m_Positions.getD j 0)
        else 0) +
        (if j ∉ m.m_Links.getD i [] ∧ j ≠ i ∧
            glm.length2 (m.m_Positions.getD i 0 - m.m_Positions.getD j 0)
              < m.m_RadiusOfInfluence * m.m_RadiusOfInfluence then
          ((m.m_RadiusOfInfluence * m.m_RadiusOfInfluence
              - glm.length2 (m.m_Positions.getD i 0 - m.m_Positions.getD j 0))
            / (m.m_RadiusOfInfluence * m.m_RadiusOfInfluence)) •
            glm.normalize (m.m_Positions.getD i 0 - m.m_Positions.getD j 0)
        else 0)) := by
    apply List.map_congr_left
    intro j _
    by_cases hjl : j ∈ m.m_Links.getD i []
    · have hji : j ≠ i := by
        intro hc
        rw [hc] at hjl
        exact hirr hjl
      by_cases hc0 : glm.length2 (m.m_Positions.getD i 0 - m.m_Positions.getD j 0)
          < m.m_RadiusOfInfluence * m.m_RadiusOfInfluence
      · rw [if_pos ⟨hji, hc0⟩, if_pos ⟨hjl, hc0⟩, if_neg (fun hh => hh.1 hjl), add_zero]
      · rw [if_neg (fun hh => hc0 hh.2), if_neg (fun hh => hc0 hh.2),
          if_neg (fun hh => hc0 hh.2.2), add_zero]
    · by_cases hji : j = i
      · rw [if_neg (fun hh => hh.1 hji), if_neg (fun hh => hjl hh.1),
          if_neg (fun hh => hh.2.1 hji), add_zero]
      · by_cases hc0 : glm.length2 (m.m_Positions.getD i 0 - m.m_Positions.getD j 0)
            < m.m_RadiusOfInfluence * m.m_RadiusOfInfluence
        · rw [if_pos ⟨hji, hc0⟩, if_neg (fun hh => hjl hh.1),
            if_pos ⟨hjl, hji, hc0⟩, zero_add]
        · rw [if_neg (fun hh => hc0 hh.2), if_neg (fun hh => hc0 hh.2),
            if_neg (fun hh => hc0 hh.2.2), add_zero]
  rw [hsplitq, sum_map_addf]
  have hA := sum_ite_mem_eq (fun j =>
      ((m.m_RadiusOfInfluence * m.m_RadiusOfInfluence
          - glm.length2 (m.m_Positions.getD i 0 - m.m_Positions.getD j 0))
        / (m.m_RadiusOfInfluence * m.m_RadiusOfInfluence)) •
        glm.normalize (m.m_Positions.getD i 0 - m.m_Positions.getD j 0))
    (fun j => glm.length2 (m.m_Positions.getD i 0 - m.m_Positions.getD j 0)
        < m.m_RadiusOfInfluence * m.m_RadiusOfInfluence)
    hqnd hlnd hcov
  rw [hA]
  exact neg_add_cancel_left _ _

/-- Witness for claim C6 on the linked pair with a third lone cell: the
index returns `[1, 2]` for cell 0, whose only link is cell 1. -/
theorem C6_repulsion_equiv_witness :
    (((fun _ : Vec3 => [1, 2]) (mPair.m_Positions.getD 0 0)).Nodup ∧
     (mPair.m_Links.getD 0 []).Nodup ∧
     0 ∉ mPair.m_Links.getD 0 [] ∧
     (∀ j ∈ mPair.m_Links.getD 0 [],
       glm.length2 (mPair.m_Positions.getD 0 0 - mPair.m_Positions.getD j 0)
         < mPair.m_RadiusOfInfluence * mPair.m_RadiusOfInfluence →
       j ∈ (fun _ : Vec3 => [1, 2]) (mPair.m_Positions.getD 0 0))) ∧
    mPair.repulsionOf (fun _ : Vec3 => [1, 2]) 0
      = (((fun _ : Vec3 => [1, 2]) (mPair.m_Positions.getD 0 0)).map (fun j =>
          if j ∉ mPair.m_Links.getD 0 [] ∧ j ≠ 0 ∧
              glm.length2 (mPair.m_Positions.getD 0 0 - mPair.m_Positions.getD j 0)
                < mPair.m_RadiusOfInfluence * mPair.m_RadiusOfInfluence then
            ((mPair.m_RadiusOfInfluence * mPair.m_RadiusOfInfluence
                - glm.length2 (mPair.m_Positions.getD 0 0 - mPair.m_Positions.getD j 0))
              / (mPair.m_RadiusOfInfluence * mPair.m_RadiusOfInfluence)) •
              glm.normalize (mPair.m_Positions.getD 0 0 - mPair.m_Positions.getD j 0)
          else 0)).sum :=
  ⟨⟨by decide, by decide, by decide,
    by
      intro j hj _
      have hL : mPair.m_Links.getD 0 [] = [1] := by decide
      rw [hL, List.mem_singleton] at hj
      subst hj
      decide⟩,
   C6_repulsion_equiv mPair (fun _ : Vec3 => [1, 2]) 0 (by decide) (by decide)
     (by decide)
     (by
       intro j hj _
       have hL : mPair.m_Links.getD 0 [] = [1] := by decide
       rw [hL, List.mem_singleton] at hj
       subst hj
       decide)⟩
